import Mathlib

/-!
# Verification of the rbush-rs spatial index against its specification

The repository ships a thin JavaScript facade (`src/rbush.js`) over a
Rust/WebAssembly R-tree engine.  The engine itself is not part of the
source tree, so its operations (insert, remove, search, collides, all,
clear, load, loadHybrid, toJSON, fromJSON) are modelled here from the
specification; the facade's marshalling behaviour is embedded directly
from `src/rbush.js`.

Coordinates are real-valued in the spec; they are embedded as rationals.
Item payloads are opaque host values compared by identity; identity is
embedded as a natural-number handle (`payload`), unique per host object.
-/

namespace RBushSpec

open scoped List

/-- Modelled from the spec: an axis-aligned rectangle with four
real-valued coordinates (§3, Rectangle). -/
structure BBox where
  minX : ℚ
  minY : ℚ
  maxX : ℚ
  maxY : ℚ
deriving DecidableEq, Repr, Inhabited

/-- Modelled from the spec: an item is an opaque host payload together
with its bounding rectangle (§3, Item).  The payload handle stands for
the host object's identity. -/
structure Item where
  box : BBox
  payload : ℕ
deriving DecidableEq, Repr, Inhabited

/-- Modelled from the spec: inclusive intersection test (§4.7):
`a.maxX ≥ b.minX` and `a.minX ≤ b.maxX`, and likewise for Y. -/
def intersects (a b : BBox) : Bool :=
  decide (b.minX ≤ a.maxX) && decide (a.minX ≤ b.maxX) &&
  decide (b.minY ≤ a.maxY) && decide (a.minY ≤ b.maxY)

/-- Modelled from the spec: containment test `contains a b` meaning
`a` contains `b` (§4.2). -/
def containsB (a b : BBox) : Bool :=
  decide (a.minX ≤ b.minX) && decide (a.minY ≤ b.minY) &&
  decide (b.maxX ≤ a.maxX) && decide (b.maxY ≤ a.maxY)

/-- Modelled from the spec: `extend a b` expands `a` to cover `b` (§4.2). -/
def extend (a b : BBox) : BBox :=
  ⟨min a.minX b.minX, min a.minY b.minY, max a.maxX b.maxX, max a.maxY b.maxY⟩

/-- Modelled from the spec: rectangle area (§4.2). -/
def area (a : BBox) : ℚ := (a.maxX - a.minX) * (a.maxY - a.minY)

/-- Modelled from the spec: rectangle margin, i.e. semi-perimeter (§4.2). -/
def margin (a : BBox) : ℚ := (a.maxX - a.minX) + (a.maxY - a.minY)

/-- Modelled from the spec: `enlargedArea a b = area (a ∪ b)` (§4.2);
the enlargement needed for `a` to cover `b` is the difference with
`area a`. -/
def enlargement (a b : BBox) : ℚ := area (extend a b) - area a

/-- Modelled from the spec: `intersectionArea a b` (§4.2), zero when the
rectangles do not overlap. -/
def intersectionArea (a b : BBox) : ℚ :=
  max 0 (min a.maxX b.maxX - max a.minX b.minX) *
  max 0 (min a.maxY b.maxY - max a.minY b.minY)

/-- Modelled from the spec: the empty-rectangle sentinel, with
`minX > maxX` (§3). -/
def emptyBox : BBox := ⟨0, 0, -1, -1⟩

/-- Bounding box of a list of boxes; the sentinel for the empty list. -/
def bboxOfList : List BBox → BBox
  | [] => emptyBox
  | b :: rest => rest.foldl extend b

theorem extend_comm (a b : BBox) : extend a b = extend b a := by
  simp [extend, min_comm, max_comm]

theorem extend_assoc (a b c : BBox) :
    extend (extend a b) c = extend a (extend b c) := by
  simp [extend, min_assoc, max_assoc]

theorem foldl_extend_out (b x : BBox) (l : List BBox) :
    l.foldl extend (extend b x) = extend (l.foldl extend b) x := by
  induction l generalizing b with
  | nil => rfl
  | cons a l ih =>
      simp only [List.foldl_cons]
      rw [extend_assoc, extend_comm x a, ← extend_assoc, ih]

theorem bboxOfList_cons (b : BBox) (l : List BBox) :
    bboxOfList (b :: l) = l.foldl extend b := rfl

theorem foldl_extend_left (B y : BBox) (s : List BBox) :
    s.foldl extend (extend B y) = extend B (s.foldl extend y) := by
  rw [extend_comm B y, foldl_extend_out, extend_comm]

theorem bboxOfList_cons_cons (b : BBox) (l : List BBox) (hl : l ≠ []) :
    bboxOfList (b :: l) = extend b (bboxOfList l) := by
  cases l with
  | nil => exact absurd rfl hl
  | cons c l =>
      simp only [bboxOfList, List.foldl_cons]
      exact foldl_extend_left b c l

theorem extend_self (a : BBox) : extend a a = a := by
  simp [extend]

theorem foldl_extend_perm {l₁ l₂ : List BBox} (h : l₁.Perm l₂) (b : BBox) :
    l₁.foldl extend b = l₂.foldl extend b := by
  induction h generalizing b with
  | nil => rfl
  | cons x _ ih => simpa using ih (extend b x)
  | swap x y l =>
      simp only [List.foldl_cons]
      rw [extend_assoc, extend_comm y x, ← extend_assoc]
  | trans _ _ ih₁ ih₂ => rw [ih₁, ih₂]

theorem foldl_extend_absorb {x : BBox} {l : List BBox} (hx : x ∈ l) (b : BBox) :
    l.foldl extend (extend b x) = l.foldl extend b := by
  induction l generalizing b with
  | nil => simp at hx
  | cons a l ih =>
      rcases List.mem_cons.mp hx with h | h
      · subst h
        simp only [List.foldl_cons]
        rw [extend_assoc, extend_self]
      · simp only [List.foldl_cons]
        rw [extend_assoc, extend_comm x a, ← extend_assoc]
        exact ih h (extend b a)

theorem foldl_extend_mem {x : BBox} {l : List BBox} (hx : x ∈ l) :
    l.foldl extend x = bboxOfList l := by
  cases l with
  | nil => simp at hx
  | cons y r =>
      simp only [List.foldl_cons, bboxOfList_cons]
      rcases List.mem_cons.mp hx with h | h
      · subst h; rw [extend_self]
      · rw [extend_comm x y, foldl_extend_absorb h]

theorem bboxOfList_perm {l₁ l₂ : List BBox} (h : l₁.Perm l₂) :
    bboxOfList l₁ = bboxOfList l₂ := by
  cases l₁ with
  | nil => rw [h.nil_eq]
  | cons x r =>
      have hx : x ∈ l₂ := h.mem_iff.mp (List.mem_cons_self x r)
      have h1 : bboxOfList (x :: r) = (x :: r).foldl extend x := by
        simp only [List.foldl_cons, extend_self, bboxOfList_cons]
      rw [h1, foldl_extend_perm h x, foldl_extend_mem hx]

/-- `extend` covers its left argument. -/
theorem containsB_extend_left (a b : BBox) : containsB (extend a b) a = true := by
  simp [containsB, extend]

/-- Containment is transitive. -/
theorem containsB_trans {a b c : BBox} (h₁ : containsB a b = true)
    (h₂ : containsB b c = true) : containsB a c = true := by
  simp only [containsB, Bool.and_eq_true, decide_eq_true_eq] at *
  exact ⟨⟨⟨le_trans h₁.1.1.1 h₂.1.1.1, le_trans h₁.1.1.2 h₂.1.1.2⟩,
    le_trans h₂.1.2 h₁.1.2⟩, le_trans h₂.2 h₁.2⟩

/-- A rectangle that intersects a contained rectangle intersects the
container. -/
theorem intersects_mono {a b r : BBox} (h : containsB a b = true)
    (hi : intersects b r = true) : intersects a r = true := by
  simp only [containsB, intersects, Bool.and_eq_true, decide_eq_true_eq] at *
  exact ⟨⟨⟨le_trans hi.1.1.1 h.1.2, le_trans h.1.1.1 hi.1.1.2⟩,
    le_trans hi.1.2 h.2⟩, le_trans h.1.1.2 hi.2⟩

/-- Every member of a list is contained in the list's bounding box. -/
theorem containsB_bboxOfList {x : BBox} {l : List BBox} (hx : x ∈ l) :
    containsB (bboxOfList l) x = true := by
  induction l with
  | nil => simp at hx
  | cons y r ih =>
      rcases List.mem_cons.mp hx with h | h
      · subst h
        cases r with
        | nil => simp [bboxOfList, containsB]
        | cons z s =>
            rw [bboxOfList_cons_cons _ _ (by simp)]
            exact containsB_extend_left _ _
      · have hr : r ≠ [] := by rintro rfl; simp at h
        rw [bboxOfList_cons_cons _ _ hr, extend_comm]
        exact containsB_trans (containsB_extend_left _ _) (ih h)

/-- Appending distributes over the list bounding box (nonempty case). -/
theorem bboxOfList_append {l₁ l₂ : List BBox} (h₁ : l₁ ≠ []) (h₂ : l₂ ≠ []) :
    bboxOfList (l₁ ++ l₂) = extend (bboxOfList l₁) (bboxOfList l₂) := by
  cases l₁ with
  | nil => exact absurd rfl h₁
  | cons x r =>
      cases l₂ with
      | nil => exact absurd rfl h₂
      | cons y s =>
          simp only [List.cons_append, bboxOfList_cons, List.foldl_append,
            List.foldl_cons]
          rw [← foldl_extend_left]

/-! ## The node tree

Modelled from the spec (§3, Node): a node is a leaf holding items or an
interior node holding child nodes, together with a cached bounding
rectangle.  Heights are derived (1 for leaves).  The child list is a
separate mutual inductive so that all tree operations are structurally
recursive and kernel-computable. -/

mutual
inductive Node where
  | leaf (box : BBox) (items : List Item)
  | inner (box : BBox) (children : NodeList)
deriving Repr
inductive NodeList where
  | nil
  | cons (c : Node) (rest : NodeList)
deriving Repr
end

instance : Inhabited Node := ⟨Node.leaf emptyBox []⟩

def NodeList.toList : NodeList → List Node
  | .nil => []
  | .cons c cs => c :: cs.toList

def NodeList.ofList : List Node → NodeList
  | [] => .nil
  | c :: cs => .cons c (NodeList.ofList cs)

theorem NodeList.toList_ofList (l : List Node) :
    (NodeList.ofList l).toList = l := by
  induction l with
  | nil => rfl
  | cons c cs ih => simp [NodeList.ofList, NodeList.toList, ih]

theorem NodeList.ofList_toList : (cs : NodeList) →
    NodeList.ofList cs.toList = cs
  | .nil => rfl
  | .cons c cs => by
      simp [NodeList.toList, NodeList.ofList, NodeList.ofList_toList cs]

/-- The node's cached bounding rectangle. -/
def Node.boxOf : Node → BBox
  | .leaf b _ => b
  | .inner b _ => b

mutual
/-- Modelled from the spec: node height, 1 for leaves (§3). -/
def Node.heightOf : Node → ℕ
  | .leaf _ _ => 1
  | .inner _ cs => 1 + cs.heightMax
def NodeList.heightMax : NodeList → ℕ
  | .nil => 0
  | .cons c cs => max c.heightOf cs.heightMax
end

mutual
/-- Modelled from the spec: `all()` returns every stored item (§4.1);
the items of a subtree in traversal order. -/
def Node.allItems : Node → List Item
  | .leaf _ its => its
  | .inner _ cs => cs.allItemsL
def NodeList.allItemsL : NodeList → List Item
  | .nil => []
  | .cons c cs => c.allItems ++ cs.allItemsL
end

mutual
/-- Modelled from the spec: `search(rect)` recursive traversal (§4.7):
prune at a node whose rectangle does not intersect the query; at a
leaf emit every item whose rectangle intersects the query; at an
interior node recurse into the children. -/
def Node.searchN (r : BBox) : Node → List Item
  | .leaf b its =>
      if intersects b r then its.filter (fun it => intersects it.box r)
      else []
  | .inner b cs => if intersects b r then cs.searchL r else []
def NodeList.searchL (r : BBox) : NodeList → List Item
  | .nil => []
  | .cons c cs => c.searchN r ++ cs.searchL r
end

mutual
/-- Modelled from the spec: `collides(rect)` traversal (§4.7), returning
true on the first child whose rectangle intersects the query. -/
def Node.collidesN (r : BBox) : Node → Bool
  | .leaf b its =>
      intersects b r && its.any (fun it => intersects it.box r)
  | .inner b cs => intersects b r && cs.collidesL r
def NodeList.collidesL (r : BBox) : NodeList → Bool
  | .nil => false
  | .cons c cs => c.collidesN r || cs.collidesL r
end

/-- Fill bound for a non-root node: between `lb` and `M` children, and
at least one. -/
def fillOK (lb M len : ℕ) : Bool :=
  decide (lb ≤ len) && decide (1 ≤ len) && decide (len ≤ M)

/-- Tightness of a cached rectangle against a list of child rectangles. -/
def tightFor (b : BBox) (boxes : List BBox) : Bool := b == bboxOfList boxes

/-- All children of an interior node share one height. -/
def uniformFor (cs : NodeList) : Bool :=
  cs.toList.all (fun c => c.heightOf == cs.heightMax)

mutual
/-- Modelled from the spec: the structural invariants of §3 for non-root
nodes, with configurable lower fill bound `lb`: between `lb` and `M`
children (and at least one), children of an interior node all of the
same height, and the cached rectangle exactly the union of the
children's rectangles. -/
def Node.wfb (lb M : ℕ) : Node → Bool
  | .leaf b its =>
      fillOK lb M its.length && tightFor b (its.map Item.box)
  | .inner b cs =>
      fillOK lb M cs.toList.length &&
      tightFor b (cs.toList.map Node.boxOf) &&
      uniformFor cs && cs.wfbL lb M
def NodeList.wfbL (lb M : ℕ) : NodeList → Bool
  | .nil => true
  | .cons c cs => c.wfb lb M && cs.wfbL lb M
end

/-- Modelled from the spec: the invariants at the root (§3, invariant 2):
the root may hold any number of children up to `M` (an empty leaf when
the tree is empty), its rectangle is tight, interior-root children share
one height and satisfy the non-root invariants. -/
def Node.wfRootb (lb M : ℕ) : Node → Bool
  | .leaf b its =>
      decide (its.length ≤ M) && tightFor b (its.map Item.box)
  | .inner b cs =>
      fillOK (min 2 lb) M cs.toList.length &&
      tightFor b (cs.toList.map Node.boxOf) &&
      uniformFor cs && cs.wfbL lb M

/-! ## The tree facade -/

/-- Modelled from the spec: the Tree holds a root node and the branching
factor `M` (§3, Tree); `maxEntries` is clamped to at least 4 at
construction (§6). -/
structure Tree where
  maxEntries : ℕ
  root : Node

/-- Modelled from the spec: minimum fill `m = max(2, ceil(0.4 M))` (§3). -/
def Tree.minEntries (t : Tree) : ℕ := max 2 ((2 * t.maxEntries + 4) / 5)

/-- Modelled from the spec: constructing a tree (§6): positive integer
`maxEntries`, clamped to at least 4; the root exists even when empty
(an empty leaf). -/
def Tree.new (maxEntries : ℕ) : Tree :=
  ⟨max 4 maxEntries, Node.leaf emptyBox []⟩

/-- Modelled from the spec: `search(rect)` (§4.1, §4.7). -/
def Tree.search (t : Tree) (r : BBox) : List Item := t.root.searchN r

/-- Modelled from the spec: `collides(rect)` (§4.1, §4.7). -/
def Tree.collides (t : Tree) (r : BBox) : Bool := t.root.collidesN r

/-- Modelled from the spec: `all()` (§4.1). -/
def Tree.all (t : Tree) : List Item := t.root.allItems

/-- Modelled from the spec: `clear()` resets to the empty tree (§4.1). -/
def Tree.clear (t : Tree) : Tree := ⟨t.maxEntries, Node.leaf emptyBox []⟩

/-- The combined invariant of a tree state: root invariants with lower
fill bound `lb` against the configured branching factor. -/
def Tree.wfFor (t : Tree) (lb : ℕ) : Bool := t.root.wfRootb lb t.maxEntries

/-! ## Search and collides -/

theorem any_eq_not_isEmpty_filter {α : Type} (p : α → Bool) (l : List α) :
    l.any p = !(l.filter p).isEmpty := by
  induction l with
  | nil => rfl
  | cons a l ih => cases ha : p a <;> simp [ha, ih]

theorem isEmpty_append_eq {α : Type} (l₁ l₂ : List α) :
    (l₁ ++ l₂).isEmpty = (l₁.isEmpty && l₂.isEmpty) := by
  cases l₁ <;> cases l₂ <;> simp

mutual
theorem collidesN_eq_searchN (r : BBox) : ∀ n : Node,
    n.collidesN r = !(n.searchN r).isEmpty
  | .leaf b its => by
      cases hb : intersects b r <;>
        simp [Node.collidesN, Node.searchN, hb, any_eq_not_isEmpty_filter]
  | .inner b cs => by
      cases hb : intersects b r <;>
        simp [Node.collidesN, Node.searchN, hb, collidesL_eq_searchL r cs]
theorem collidesL_eq_searchL (r : BBox) : ∀ cs : NodeList,
    cs.collidesL r = !(cs.searchL r).isEmpty
  | .nil => rfl
  | .cons c cs => by
      simp [NodeList.collidesL, NodeList.searchL, collidesN_eq_searchN r c,
        collidesL_eq_searchL r cs, isEmpty_append_eq, Bool.not_and]
end

/-- Unpack the leaf case of the invariant checker. -/
theorem wfb_leaf_iff {lb M : ℕ} {b : BBox} {its : List Item} :
    Node.wfb lb M (.leaf b its) = true ↔
    fillOK lb M its.length = true ∧ b = bboxOfList (its.map Item.box) := by
  simp [Node.wfb, tightFor]

/-- Unpack the interior case of the invariant checker. -/
theorem wfb_inner_iff {lb M : ℕ} {b : BBox} {cs : NodeList} :
    Node.wfb lb M (.inner b cs) = true ↔
    fillOK lb M cs.toList.length = true ∧
    b = bboxOfList (cs.toList.map Node.boxOf) ∧
    uniformFor cs = true ∧ cs.wfbL lb M = true := by
  simp [Node.wfb, tightFor, and_assoc]

theorem wfRootb_leaf_iff {lb M : ℕ} {b : BBox} {its : List Item} :
    Node.wfRootb lb M (.leaf b its) = true ↔
    its.length ≤ M ∧ b = bboxOfList (its.map Item.box) := by
  simp [Node.wfRootb, tightFor]

theorem wfRootb_inner_iff {lb M : ℕ} {b : BBox} {cs : NodeList} :
    Node.wfRootb lb M (.inner b cs) = true ↔
    fillOK (min 2 lb) M cs.toList.length = true ∧
    b = bboxOfList (cs.toList.map Node.boxOf) ∧
    uniformFor cs = true ∧ cs.wfbL lb M = true := by
  simp [Node.wfRootb, tightFor, and_assoc]

/-- Extract the members of a well-formed child list. -/
theorem wfbL_mem {lb M : ℕ} : ∀ cs : NodeList, cs.wfbL lb M = true →
    ∀ c ∈ cs.toList, c.wfb lb M = true
  | .nil => by intro _ c hc; simp [NodeList.toList] at hc
  | .cons d ds => by
      intro h c hc
      simp only [NodeList.wfbL, Bool.and_eq_true] at h
      simp only [NodeList.toList, List.mem_cons] at hc
      rcases hc with rfl | hc
      · exact h.1
      · exact wfbL_mem ds h.2 c hc

theorem allItemsL_mem : ∀ cs : NodeList, ∀ it ∈ cs.allItemsL,
    ∃ c ∈ cs.toList, it ∈ c.allItems
  | .nil => by intro it hit; simp [NodeList.allItemsL] at hit
  | .cons c cs => by
      intro it hit
      simp only [NodeList.allItemsL] at hit
      rcases List.mem_append.mp hit with hin | hin
      · exact ⟨c, by simp [NodeList.toList], hin⟩
      · obtain ⟨d, hd, hdin⟩ := allItemsL_mem cs it hin
        exact ⟨d, by simp [NodeList.toList, hd], hdin⟩

mutual
/-- Under the invariants every stored item's rectangle is contained in
its node's rectangle. -/
theorem allItems_contained {lb M : ℕ} : ∀ n : Node, n.wfb lb M = true →
    ∀ it ∈ n.allItems, containsB n.boxOf it.box = true
  | .leaf b its => by
      intro h it hit
      obtain ⟨-, hb⟩ := wfb_leaf_iff.mp h
      simp only [Node.allItems] at hit
      simpa [Node.boxOf, hb] using
        containsB_bboxOfList (List.mem_map_of_mem Item.box hit)
  | .inner b cs => by
      intro h it hit
      obtain ⟨-, hb, -, hl⟩ := wfb_inner_iff.mp h
      simp only [Node.allItems] at hit
      obtain ⟨c, hc, h1⟩ := allItemsL_contained cs hl it hit
      have h2 : containsB (bboxOfList (cs.toList.map Node.boxOf)) c.boxOf
          = true :=
        containsB_bboxOfList (List.mem_map_of_mem Node.boxOf hc)
      simpa [Node.boxOf, hb] using containsB_trans h2 h1
theorem allItemsL_contained {lb M : ℕ} : ∀ cs : NodeList,
    cs.wfbL lb M = true → ∀ it ∈ cs.allItemsL,
    ∃ c ∈ cs.toList, containsB c.boxOf it.box = true
  | .nil => by intro _ it hit; simp [NodeList.allItemsL] at hit
  | .cons c cs => by
      intro h it hit
      simp only [NodeList.wfbL, Bool.and_eq_true] at h
      simp only [NodeList.allItemsL] at hit
      rcases List.mem_append.mp hit with hin | hin
      · exact ⟨c, by simp [NodeList.toList],
          allItems_contained c h.1 it hin⟩
      · obtain ⟨d, hd, hdc⟩ := allItemsL_contained cs h.2 it hin
        exact ⟨d, by simp [NodeList.toList, hd], hdc⟩
end

mutual
/-- Under the invariants, searching a subtree filters its stored items
by intersection with the query rectangle. -/
theorem searchN_filter {lb M : ℕ} (r : BBox) : ∀ n : Node,
    n.wfb lb M = true →
    n.searchN r = n.allItems.filter (fun it => intersects it.box r)
  | .leaf b its => by
      intro h
      obtain ⟨-, hb⟩ := wfb_leaf_iff.mp h
      simp only [Node.searchN, Node.allItems]
      cases hbr : intersects b r with
      | true => simp
      | false =>
          rw [if_neg Bool.false_ne_true]
          symm
          rw [List.filter_eq_nil_iff]
          intro it hit hint
          have hc : containsB b it.box = true := by
            rw [hb]
            exact containsB_bboxOfList (List.mem_map_of_mem Item.box hit)
          rw [intersects_mono hc hint] at hbr
          exact Bool.true_eq_false.mp hbr
  | .inner b cs => by
      intro h
      obtain ⟨-, hb, -, hl⟩ := wfb_inner_iff.mp h
      simp only [Node.searchN, Node.allItems]
      cases hbr : intersects b r with
      | true => simpa using searchL_filter r cs hl
      | false =>
          rw [if_neg Bool.false_ne_true]
          symm
          rw [List.filter_eq_nil_iff]
          intro it hit hint
          obtain ⟨c, hc, hcc⟩ := allItemsL_contained cs hl it hit
          have h2 : containsB b c.boxOf = true := by
            rw [hb]
            exact containsB_bboxOfList (List.mem_map_of_mem Node.boxOf hc)
          rw [intersects_mono (containsB_trans h2 hcc) hint] at hbr
          exact Bool.true_eq_false.mp hbr
theorem searchL_filter {lb M : ℕ} (r : BBox) : ∀ cs : NodeList,
    cs.wfbL lb M = true →
    cs.searchL r = cs.allItemsL.filter (fun it => intersects it.box r)
  | .nil => by intro _; rfl
  | .cons c cs => by
      intro h
      simp only [NodeList.wfbL, Bool.and_eq_true] at h
      simp only [NodeList.searchL, NodeList.allItemsL, List.filter_append]
      rw [searchN_filter r c h.1, searchL_filter r cs h.2]
end

/-- The filter characterisation of search also holds at the root. -/
theorem searchRoot_filter {lb M : ℕ} (r : BBox) (n : Node)
    (h : n.wfRootb lb M = true) :
    n.searchN r = n.allItems.filter (fun it => intersects it.box r) := by
  cases n with
  | leaf b its =>
      obtain ⟨-, hb⟩ := wfRootb_leaf_iff.mp h
      simp only [Node.searchN, Node.allItems]
      cases hbr : intersects b r with
      | true => simp
      | false =>
          rw [if_neg Bool.false_ne_true]
          symm
          rw [List.filter_eq_nil_iff]
          intro it hit hint
          have hc : containsB b it.box = true := by
            rw [hb]
            exact containsB_bboxOfList (List.mem_map_of_mem Item.box hit)
          rw [intersects_mono hc hint] at hbr
          exact Bool.true_eq_false.mp hbr
  | inner b cs =>
      obtain ⟨-, hb, -, hl⟩ := wfRootb_inner_iff.mp h
      simp only [Node.searchN, Node.allItems]
      cases hbr : intersects b r with
      | true => simpa using searchL_filter r cs hl
      | false =>
          rw [if_neg Bool.false_ne_true]
          symm
          rw [List.filter_eq_nil_iff]
          intro it hit hint
          obtain ⟨c, hc, hcc⟩ := allItemsL_contained cs hl it hit
          have h2 : containsB b c.boxOf = true := by
            rw [hb]
            exact containsB_bboxOfList (List.mem_map_of_mem Node.boxOf hc)
          rw [intersects_mono (containsB_trans h2 hcc) hint] at hbr
          exact Bool.true_eq_false.mp hbr

/-- C1: for every tree state satisfying the structural invariants and
every query rectangle `R`, `search(R)` returns exactly the set of stored
items whose bounding rectangle intersects `R`, with intersection tested
edge-inclusively, and with no item appearing twice in the result (given
that, per invariant 5, the stored items are pairwise distinct). -/
theorem search_returns_exactly_intersecting (t : Tree) (r : BBox)
    (h : t.wfFor 1 = true) :
    (∀ it : Item, it ∈ t.search r ↔ it ∈ t.all ∧ intersects it.box r = true)
    ∧ (t.all.Nodup → (t.search r).Nodup) := by
  have hf : t.search r = t.all.filter (fun it => intersects it.box r) :=
    searchRoot_filter r t.root h
  constructor
  · intro it
    rw [hf]
    simp [List.mem_filter]
  · intro hnd
    rw [hf]
    exact hnd.filter _

/-- Witness for C1 at a concrete two-item tree and query. -/
theorem search_returns_exactly_intersecting_witness :
    (Tree.wfFor ⟨9, Node.leaf ⟨0, 0, 3, 3⟩
        [⟨⟨0, 0, 1, 1⟩, 0⟩, ⟨⟨2, 2, 3, 3⟩, 1⟩]⟩ 1 = true) ∧
    ((∀ it : Item, it ∈ Tree.search ⟨9, Node.leaf ⟨0, 0, 3, 3⟩
        [⟨⟨0, 0, 1, 1⟩, 0⟩, ⟨⟨2, 2, 3, 3⟩, 1⟩]⟩ ⟨0, 0, 1, 1⟩ ↔
      it ∈ Tree.all ⟨9, Node.leaf ⟨0, 0, 3, 3⟩
        [⟨⟨0, 0, 1, 1⟩, 0⟩, ⟨⟨2, 2, 3, 3⟩, 1⟩]⟩ ∧
      intersects it.box ⟨0, 0, 1, 1⟩ = true) ∧
    ((Tree.all ⟨9, Node.leaf ⟨0, 0, 3, 3⟩
        [⟨⟨0, 0, 1, 1⟩, 0⟩, ⟨⟨2, 2, 3, 3⟩, 1⟩]⟩).Nodup →
      (Tree.search ⟨9, Node.leaf ⟨0, 0, 3, 3⟩
        [⟨⟨0, 0, 1, 1⟩, 0⟩, ⟨⟨2, 2, 3, 3⟩, 1⟩]⟩ ⟨0, 0, 1, 1⟩).Nodup)) :=
  ⟨by decide, search_returns_exactly_intersecting _ _ (by decide)⟩

/-- C4: `collides(R)` is true exactly when `search(R)` is non-empty, for
every tree state and query rectangle. -/
theorem collides_iff_search_nonempty (t : Tree) (r : BBox) :
    t.collides r = true ↔ t.search r ≠ [] := by
  rw [Tree.collides, Tree.search, collidesN_eq_searchN]
  cases hs : (t.root.searchN r) <;> simp

/-! ## Insertion: choose-subtree and split

Modelled from the spec (§4.3, §4.4). -/

/-- Strict lexicographic comparison of rational pairs, used by the
heuristics; ties are resolved towards the earlier candidate. -/
def lexLtQ (a b : ℚ × ℚ) : Bool :=
  decide (a.1 < b.1) || (a.1 == b.1 && decide (a.2 < b.2))

/-- First minimum of a list under a rational-pair key. -/
def pickMinBy {α : Type} (key : α → ℚ × ℚ) : List α → Option α
  | [] => none
  | a :: rest =>
      match pickMinBy key rest with
      | none => some a
      | some b => some (if lexLtQ (key b) (key a) then b else a)

theorem pickMinBy_mem {α : Type} (key : α → ℚ × ℚ) :
    ∀ {l : List α} {a : α}, pickMinBy key l = some a → a ∈ l := by
  intro l
  induction l with
  | nil => intro a h; simp [pickMinBy] at h
  | cons x rest ih =>
      intro a h
      simp only [pickMinBy] at h
      cases hr : pickMinBy key rest with
      | none => rw [hr] at h; exact (Option.some_inj.mp h) ▸ List.mem_cons_self x rest
      | some b =>
          rw [hr] at h
          rcases Option.some_inj.mp h with rfl
          by_cases hlt : lexLtQ (key b) (key x) = true
          · simp only [if_pos hlt]
            exact List.mem_cons_of_mem x (ih hr)
          · simp only [if_neg hlt]
            exact List.mem_cons_self x rest

theorem pickMinBy_isSome {α : Type} (key : α → ℚ × ℚ) {l : List α}
    (h : l ≠ []) : ∃ a, pickMinBy key l = some a := by
  cases l with
  | nil => exact absurd rfl h
  | cons x rest =>
      simp only [pickMinBy]
      cases pickMinBy key rest with
      | none => exact ⟨x, rfl⟩
      | some b => exact ⟨_, rfl⟩

/-- Modelled from the spec: choose-subtree (§4.3): the child index
minimising the enlargement needed to cover the new entry's rectangle,
ties broken by smaller area, earlier child winning remaining ties. -/
def chooseChildIdx (r : BBox) : List Node → ℕ
  | [] => 0
  | [_] => 0
  | c :: rest =>
      let j := chooseChildIdx r rest
      let b := (rest.getD j default).boxOf
      if lexLtQ (enlargement b r, area b) (enlargement c.boxOf r, area c.boxOf)
      then j + 1 else 0

theorem chooseChildIdx_lt (r : BBox) :
    ∀ l : List Node, l ≠ [] → chooseChildIdx r l < l.length
  | [] => by intro h; exact absurd rfl h
  | [c] => by intro _; simp [chooseChildIdx]
  | c :: d :: rest => by
      intro _
      have ih := chooseChildIdx_lt r (d :: rest) (by simp)
      simp only [chooseChildIdx]
      by_cases hlt : lexLtQ
          (enlargement ((d :: rest).getD (chooseChildIdx r (d :: rest))
              default).boxOf r,
            area ((d :: rest).getD (chooseChildIdx r (d :: rest)) default).boxOf)
          (enlargement c.boxOf r, area c.boxOf) = true
      · simp only [if_pos hlt, List.length_cons]
        simp only [List.length_cons] at ih
        omega
      · simp only [if_neg hlt, List.length_cons]
        omega

/-- Sorting a list by a rational key (stable insertion sort). -/
def sortByKey {α : Type} (key : α → ℚ) (l : List α) : List α :=
  List.insertionSort (fun a b => key a ≤ key b) l

theorem sortByKey_perm {α : Type} (key : α → ℚ) (l : List α) :
    (sortByKey key l).Perm l :=
  List.perm_insertionSort _ l

/-- Candidate first-group sizes for a split: `k ∈ [m, total − m]`
(§4.4). -/
def splitKs (m total : ℕ) : List ℕ :=
  (List.range (total + 1 - 2 * m)).map (fun i => m + i)

theorem splitKs_mem {m total k : ℕ} (h : k ∈ splitKs m total) :
    m ≤ k ∧ k + m ≤ total := by
  simp only [splitKs, List.mem_map, List.mem_range] at h
  obtain ⟨i, hi, rfl⟩ := h
  omega

theorem splitKs_ne_nil {m total : ℕ} (h : 2 * m ≤ total) :
    splitKs m total ≠ [] := by
  simp only [splitKs, ne_eq, List.map_eq_nil_iff, List.range_eq_nil]
  omega

/-- Modelled from the spec: total margin of all candidate distributions
of one sorted ordering (§4.4, step 1). -/
def distMargin {α : Type} (box : α → BBox) (m : ℕ) (sorted : List α) : ℚ :=
  ((splitKs m sorted.length).map (fun k =>
    margin (bboxOfList ((sorted.take k).map box)) +
    margin (bboxOfList ((sorted.drop k).map box)))).sum

/-- Modelled from the spec: overlap-area and total-area key of one
candidate distribution (§4.4, step 2). -/
def distKey {α : Type} (box : α → BBox) (sorted : List α) (k : ℕ) : ℚ × ℚ :=
  let b1 := bboxOfList ((sorted.take k).map box)
  let b2 := bboxOfList ((sorted.drop k).map box)
  (intersectionArea b1 b2, area b1 + area b2)

/-- Modelled from the spec: split of an overflowing child list (§4.4):
choose the axis with the smaller total margin over the orderings by min
and by max coordinate, then the distribution minimising overlap area,
ties broken by total area; the first group keeps `k` children. -/
def splitList {α : Type} (box : α → BBox) (m : ℕ) (l : List α) :
    List α × List α :=
  let sxMin := sortByKey (fun a => (box a).minX) l
  let sxMax := sortByKey (fun a => (box a).maxX) l
  let syMin := sortByKey (fun a => (box a).minY) l
  let syMax := sortByKey (fun a => (box a).maxY) l
  let marginX := distMargin box m sxMin + distMargin box m sxMax
  let marginY := distMargin box m syMin + distMargin box m syMax
  let sorted := if decide (marginX ≤ marginY) then sxMin else syMin
  let k := (pickMinBy (distKey box sorted) (splitKs m l.length)).getD m
  (sorted.take k, sorted.drop k)

theorem splitList_spec {α : Type} (box : α → BBox) (m : ℕ) (l : List α)
    (h2m : 2 * m ≤ l.length) :
    ((splitList box m l).1 ++ (splitList box m l).2).Perm l ∧
    m ≤ (splitList box m l).1.length ∧
    m ≤ (splitList box m l).2.length ∧
    (splitList box m l).1.length + m ≤ l.length ∧
    (splitList box m l).2.length + m ≤ l.length := by
  simp only [splitList]
  set sorted := if decide ((distMargin box m (sortByKey (fun a => (box a).minX) l)
        + distMargin box m (sortByKey (fun a => (box a).maxX) l)) ≤
        (distMargin box m (sortByKey (fun a => (box a).minY) l)
        + distMargin box m (sortByKey (fun a => (box a).maxY) l)))
      then sortByKey (fun a => (box a).minX) l
      else sortByKey (fun a => (box a).minY) l with hs
  have hperm : sorted.Perm l := by
    rw [hs]
    by_cases hd : (distMargin box m (sortByKey (fun a => (box a).minX) l)
        + distMargin box m (sortByKey (fun a => (box a).maxX) l)) ≤
        (distMargin box m (sortByKey (fun a => (box a).minY) l)
        + distMargin box m (sortByKey (fun a => (box a).maxY) l))
    · rw [if_pos (by simpa using hd)]; exact sortByKey_perm _ l
    · rw [if_neg (by simpa using hd)]; exact sortByKey_perm _ l
  have hlen : sorted.length = l.length := hperm.length_eq
  obtain ⟨k0, hk0⟩ := pickMinBy_isSome (distKey box sorted)
    (splitKs_ne_nil h2m)
  obtain ⟨hk0m, hk0M⟩ := splitKs_mem (pickMinBy_mem _ hk0)
  rw [hk0]
  simp only [Option.getD_some]
  refine ⟨by simpa using hperm, ?_⟩
  have htake : (sorted.take k0).length = k0 := by
    rw [List.length_take]; omega
  have hdrop : (sorted.drop k0).length = sorted.length - k0 := by
    rw [List.length_drop]
  constructor
  · omega
  constructor
  · omega
  omega

/-! ## Node constructors with exactly recomputed rectangles (§4.4 step 3) -/

/-- A leaf over the given items with its rectangle recomputed exactly. -/
def mkLeaf (its : List Item) : Node :=
  .leaf (bboxOfList (its.map Item.box)) its

/-- An interior node over the given children with its rectangle
recomputed exactly. -/
def mkInner (l : List Node) : Node :=
  .inner (bboxOfList (l.map Node.boxOf)) (.ofList l)

theorem allItemsL_eq (cs : NodeList) :
    cs.allItemsL = cs.toList.flatMap Node.allItems := by
  induction cs using NodeList.toList.induct with
  | case1 => rfl
  | case2 c cs ih => simp [NodeList.allItemsL, NodeList.toList, ih]

theorem mkInner_allItems (l : List Node) :
    (mkInner l).allItems = l.flatMap Node.allItems := by
  simp [mkInner, Node.allItems, allItemsL_eq, NodeList.toList_ofList]

theorem wfbL_intro {lb M : ℕ} : ∀ {l : List Node},
    (∀ c ∈ l, c.wfb lb M = true) → (NodeList.ofList l).wfbL lb M = true := by
  intro l
  induction l with
  | nil => intro _; rfl
  | cons c cs ih =>
      intro h
      simp only [NodeList.ofList, NodeList.wfbL, Bool.and_eq_true]
      exact ⟨h c (List.mem_cons_self c cs), ih fun d hd =>
        h d (List.mem_cons_of_mem c hd)⟩

theorem heightMax_ofList_const {l : List Node} {h : ℕ} (hne : l ≠ [])
    (hall : ∀ c ∈ l, c.heightOf = h) :
    (NodeList.ofList l).heightMax = h := by
  induction l with
  | nil => exact absurd rfl hne
  | cons c cs ih =>
      simp only [NodeList.ofList, NodeList.heightMax]
      rw [hall c (List.mem_cons_self c cs)]
      cases cs with
      | nil => simp [NodeList.ofList, NodeList.heightMax]
      | cons d ds =>
          rw [ih (by simp) fun x hx => hall x (List.mem_cons_of_mem c hx)]
          simp

theorem uniformFor_ofList {l : List Node} {h : ℕ}
    (hall : ∀ c ∈ l, c.heightOf = h) :
    uniformFor (NodeList.ofList l) = true := by
  cases hl : l with
  | nil => subst hl; rfl
  | cons c cs =>
      subst hl
      simp only [uniformFor, NodeList.toList_ofList, List.all_eq_true,
        beq_iff_eq]
      intro x hx
      rw [hall x hx, heightMax_ofList_const (by simp) hall]

theorem uniformFor_mem {cs : NodeList} {c : Node}
    (hu : uniformFor cs = true) (hc : c ∈ cs.toList) :
    c.heightOf = cs.heightMax := by
  simp only [uniformFor, List.all_eq_true, beq_iff_eq] at hu
  exact hu c hc

/-- Building an interior node from children that are well formed and all
of one height yields a well-formed node of the next height. -/
theorem wfb_mkInner {lb M h : ℕ} {l : List Node}
    (hlb : lb ≤ l.length) (h1 : 1 ≤ l.length) (hM : l.length ≤ M)
    (hall : ∀ c ∈ l, c.wfb lb M = true ∧ c.heightOf = h) :
    (mkInner l).wfb lb M = true ∧ (mkInner l).heightOf = h + 1 := by
  constructor
  · rw [mkInner, wfb_inner_iff]
    refine ⟨?_, ?_, ?_, ?_⟩
    · simp only [NodeList.toList_ofList, fillOK, Bool.and_eq_true,
        decide_eq_true_eq]
      exact ⟨⟨hlb, h1⟩, hM⟩
    · rw [NodeList.toList_ofList]
    · exact uniformFor_ofList fun c hc => (hall c hc).2
    · exact wfbL_intro fun c hc => (hall c hc).1
  · have hne : l ≠ [] := by
      cases l with
      | nil => simp at h1
      | cons => simp
    simp only [mkInner, Node.heightOf]
    rw [heightMax_ofList_const hne fun c hc => (hall c hc).2]
    omega

theorem wfb_mkLeaf {lb M : ℕ} {its : List Item}
    (hlb : lb ≤ its.length) (h1 : 1 ≤ its.length) (hM : its.length ≤ M) :
    (mkLeaf its).wfb lb M = true := by
  rw [mkLeaf, wfb_leaf_iff]
  exact ⟨by simp [fillOK, hlb, h1, hM], rfl⟩

/-! ## Insertion (§4.3, §4.4)

Modelled from the spec: descend `d` levels choosing the subtree that
needs the least enlargement, append the entry, walk back up rebuilding
rectangles, splitting any node that exceeds `M` children.  An entry is
either an item (inserted at a leaf) or a whole subtree (reinserted
during condensation at its original height, §4.6 step 4). -/

inductive Entry where
  | item (it : Item)
  | node (n : Node)

def Entry.boxOf : Entry → BBox
  | .item it => it.box
  | .node n => n.boxOf

/-- Height discriminator of an entry: an item sits below leaf level. -/
def Entry.heightE : Entry → ℕ
  | .item _ => 0
  | .node n => n.heightOf

def Entry.allItemsE : Entry → List Item
  | .item it => [it]
  | .node n => n.allItems

/-- Modelled from the spec: recursive insertion (§4.3): on reaching the
target level append the entry (splitting per §4.4 when the node
overflows `M`); otherwise descend into the chosen subtree, rebuild this
node around the returned child or children, splitting on overflow. -/
def insertRec (m M : ℕ) (e : Entry) : ℕ → Node → Node ⊕ (Node × Node)
  | 0, n =>
      match n, e with
      | .leaf _ its, .item it =>
          let its2 := its ++ [it]
          if its2.length ≤ M then .inl (mkLeaf its2)
          else
            .inr (mkLeaf (splitList Item.box m its2).1,
              mkLeaf (splitList Item.box m its2).2)
      | .inner _ cs, .node c =>
          let l2 := cs.toList ++ [c]
          if l2.length ≤ M then .inl (mkInner l2)
          else
            .inr (mkInner (splitList Node.boxOf m l2).1,
              mkInner (splitList Node.boxOf m l2).2)
      | n, _ => .inl n
  | d + 1, n =>
      match n with
      | .leaf b its => .inl (.leaf b its)
      | .inner _ cs =>
          let l := cs.toList
          let i := chooseChildIdx e.boxOf l
          match insertRec m M e d (l.getD i default) with
          | .inl c2 => .inl (mkInner (l.set i c2))
          | .inr p =>
              let l2 := l.take i ++ [p.1, p.2] ++ l.drop (i + 1)
              if l2.length ≤ M then .inl (mkInner l2)
              else
                .inr (mkInner (splitList Node.boxOf m l2).1,
                  mkInner (splitList Node.boxOf m l2).2)

/-- Modelled from the spec: insertion at the root; a root split grows
the tree by one level (§4.4 step 3). -/
def insertEntryRoot (m M : ℕ) (root : Node) (e : Entry) : Node :=
  match insertRec m M e (root.heightOf - (e.heightE + 1)) root with
  | .inl n => n
  | .inr p => mkInner [p.1, p.2]

/-- Modelled from the spec: `insert(item)` (§4.1, §4.3). -/
def Tree.insert (t : Tree) (it : Item) : Tree :=
  ⟨t.maxEntries, insertEntryRoot t.minEntries t.maxEntries t.root (.item it)⟩

theorem heightOf_pos : ∀ n : Node, 1 ≤ n.heightOf
  | .leaf _ _ => le_refl 1
  | .inner _ _ => by simp [Node.heightOf]

theorem fillOK_iff {lb M len : ℕ} :
    fillOK lb M len = true ↔ lb ≤ len ∧ 1 ≤ len ∧ len ≤ M := by
  simp [fillOK, and_assoc]

theorem heightOf_leaf (b : BBox) (its : List Item) :
    (Node.leaf b its).heightOf = 1 := rfl

theorem heightOf_inner (b : BBox) (cs : NodeList) :
    (Node.inner b cs).heightOf = 1 + cs.heightMax := rfl

theorem allItems_leaf (b : BBox) (its : List Item) :
    (Node.leaf b its).allItems = its := rfl

theorem allItems_inner (b : BBox) (cs : NodeList) :
    (Node.inner b cs).allItems = cs.allItemsL := rfl

theorem mkLeaf_height (its : List Item) : (mkLeaf its).heightOf = 1 := rfl

theorem mkLeaf_allItems (its : List Item) : (mkLeaf its).allItems = its := rfl

theorem getD_mem {α : Type} [Inhabited α] {l : List α} {i : ℕ}
    (h : i < l.length) : l.getD i default ∈ l := by
  rw [List.getD_eq_getElem?_getD, List.getElem?_eq_getElem h]
  exact List.getElem_mem h

theorem set_perm_cons {α : Type} : ∀ (l : List α) (i : ℕ) (a : α),
    i < l.length → (l.set i a).Perm (a :: l.eraseIdx i)
  | [], i, a => by intro h; simp at h
  | x :: l, 0, a => by intro _; exact List.Perm.refl _
  | x :: l, i + 1, a => by
      intro h
      have ih := set_perm_cons l i a (by simpa using h)
      exact (ih.cons x).trans (List.Perm.swap a x _)

theorem perm_getD_cons {α : Type} [Inhabited α] : ∀ (l : List α) (i : ℕ),
    i < l.length → l.Perm (l.getD i default :: l.eraseIdx i)
  | [], i => by intro h; simp at h
  | x :: l, 0 => by intro _; exact List.Perm.refl _
  | x :: l, i + 1 => by
      intro h
      have ih := perm_getD_cons l i (by simpa using h)
      exact (ih.cons x).trans (List.Perm.swap _ x _)

theorem perm_insert_pair {α : Type} (l : List α) (i : ℕ) (a b : α) :
    (l.take i ++ [a, b] ++ l.drop (i + 1)).Perm (a :: b :: l.eraseIdx i) := by
  rw [List.eraseIdx_eq_take_drop_succ]
  calc l.take i ++ [a, b] ++ l.drop (i + 1)
      ~ ([a, b] ++ l.take i) ++ l.drop (i + 1) :=
        List.perm_append_comm.append_right _
    _ = a :: b :: (l.take i ++ l.drop (i + 1)) := by simp

theorem perm_shuffle {α : Type} (a b c : List α) :
    ((a ++ b) ++ c).Perm ((a ++ c) ++ b) := by
  calc (a ++ b) ++ c = a ++ (b ++ c) := by rw [List.append_assoc]
    _ ~ a ++ (c ++ b) := List.Perm.append_left a List.perm_append_comm
    _ = (a ++ c) ++ b := by rw [List.append_assoc]

/-- Insertion preserves the structural invariants below the root: the
result is one node (same height, same items plus the entry) or a split
pair of well-formed siblings covering the same contents. -/
theorem insertRec_wf {lb m M : ℕ} (hlb : lb ≤ m) (hm : 2 ≤ m)
    (hM : 2 * m ≤ M + 1) (e : Entry)
    (he : ∀ c, e = .node c → c.wfb lb M = true) :
    ∀ (d : ℕ) (n : Node), n.wfb lb M = true →
    n.heightOf = d + e.heightE + 1 →
    (∀ n2, insertRec m M e d n = .inl n2 →
      n2.wfb lb M = true ∧ n2.heightOf = n.heightOf ∧
      n2.allItems.Perm (n.allItems ++ e.allItemsE)) ∧
    (∀ a b, insertRec m M e d n = .inr (a, b) →
      a.wfb lb M = true ∧ b.wfb lb M = true ∧
      a.heightOf = n.heightOf ∧ b.heightOf = n.heightOf ∧
      (a.allItems ++ b.allItems).Perm (n.allItems ++ e.allItemsE)) := by
  intro d
  induction d with
  | zero =>
      intro n hwf hh
      cases n with
      | leaf b its =>
          cases e with
          | node c =>
              exfalso
              simp only [heightOf_leaf, Entry.heightE] at hh
              have := heightOf_pos c
              omega
          | item it =>
              obtain ⟨hfill, hbx⟩ := wfb_leaf_iff.mp hwf
              rw [fillOK_iff] at hfill
              have hitems : (Node.leaf b its).allItems ++
                  (Entry.item it).allItemsE = its ++ [it] := rfl
              constructor
              · intro n2 hn2
                simp only [insertRec] at hn2
                by_cases hlen : (its ++ [it]).length ≤ M
                · rw [if_pos hlen] at hn2
                  injection hn2 with hn2
                  subst hn2
                  refine ⟨wfb_mkLeaf ?_ ?_ ?_, rfl, ?_⟩
                  · simp only [List.length_append, List.length_cons,
                      List.length_nil]
                    omega
                  · simp only [List.length_append, List.length_cons,
                      List.length_nil]
                    omega
                  · exact hlen
                  · rw [mkLeaf_allItems, hitems]
                · rw [if_neg hlen] at hn2
                  exact absurd hn2 (by simp)
              · intro a2 b2 hab
                simp only [insertRec] at hab
                by_cases hlen : (its ++ [it]).length ≤ M
                · rw [if_pos hlen] at hab
                  exact absurd hab (by simp)
                · rw [if_neg hlen] at hab
                  injection hab with hab
                  injection hab with hE1 hE2
                  subst hE1
                  subst hE2
                  have h2m : 2 * m ≤ (its ++ [it]).length := by
                    simp only [List.length_append, List.length_cons,
                      List.length_nil] at hlen ⊢
                    omega
                  obtain ⟨hperm, hg1, hg2, hg1M, hg2M⟩ :=
                    splitList_spec Item.box m (its ++ [it]) h2m
                  have hlen2 : (its ++ [it]).length = M + 1 := by
                    simp only [List.length_append, List.length_cons,
                      List.length_nil] at hlen ⊢
                    omega
                  refine ⟨wfb_mkLeaf (le_trans hlb hg1) (by omega)
                      (by omega),
                    wfb_mkLeaf (le_trans hlb hg2) (by omega) (by omega),
                    rfl, rfl, ?_⟩
                  rw [mkLeaf_allItems, mkLeaf_allItems, hitems]
                  exact hperm
      | inner b cs =>
          cases e with
          | item it =>
              exfalso
              obtain ⟨hfill, -, hunif, hwfl⟩ := wfb_inner_iff.mp hwf
              rw [fillOK_iff] at hfill
              obtain ⟨c, hc⟩ : ∃ c, c ∈ cs.toList := by
                cases hl : cs.toList with
                | nil => rw [hl] at hfill; simp at hfill
                | cons x xs => exact ⟨x, hl ▸ List.mem_cons_self x xs⟩
              have h1 := uniformFor_mem hunif hc
              have h2 := heightOf_pos c
              simp only [heightOf_inner, Entry.heightE] at hh
              omega
          | node c =>
              obtain ⟨hfill, hbx, hunif, hwfl⟩ := wfb_inner_iff.mp hwf
              rw [fillOK_iff] at hfill
              have hce : c.wfb lb M = true := he c rfl
              simp only [heightOf_inner, Entry.heightE] at hh
              have hch : c.heightOf = cs.heightMax := by omega
              have hmem : ∀ x ∈ cs.toList ++ [c],
                  x.wfb lb M = true ∧ x.heightOf = cs.heightMax := by
                intro x hx
                rcases List.mem_append.mp hx with hx | hx
                · exact ⟨wfbL_mem cs hwfl x hx, uniformFor_mem hunif hx⟩
                · rw [List.mem_singleton.mp hx]
                  exact ⟨hce, hch⟩
              have hitems : (Node.inner b cs).allItems ++
                  (Entry.node c).allItemsE =
                  (cs.toList ++ [c]).flatMap Node.allItems := by
                simp [allItems_inner, Entry.allItemsE, allItemsL_eq]
              constructor
              · intro n2 hn2
                simp only [insertRec] at hn2
                by_cases hlen : (cs.toList ++ [c]).length ≤ M
                · rw [if_pos hlen] at hn2
                  injection hn2 with hn2
                  subst hn2
                  have hmk : (mkInner (cs.toList ++ [c])).wfb lb M = true ∧
                      (mkInner (cs.toList ++ [c])).heightOf =
                        cs.heightMax + 1 :=
                    wfb_mkInner
                      (by simp only [List.length_append, List.length_cons,
                        List.length_nil]; omega)
                      (by simp only [List.length_append, List.length_cons,
                        List.length_nil]; omega)
                      hlen hmem
                  obtain ⟨hw, hht⟩ := hmk
                  refine ⟨hw, ?_, ?_⟩
                  · rw [hht, heightOf_inner]
                    omega
                  · rw [mkInner_allItems, hitems]
                · rw [if_neg hlen] at hn2
                  exact absurd hn2 (by simp)
              · intro a2 b2 hab
                simp only [insertRec] at hab
                by_cases hlen : (cs.toList ++ [c]).length ≤ M
                · rw [if_pos hlen] at hab
                  exact absurd hab (by simp)
                · rw [if_neg hlen] at hab
                  injection hab with hab
                  injection hab with hE1 hE2
                  subst hE1
                  subst hE2
                  have h2m : 2 * m ≤ (cs.toList ++ [c]).length := by
                    simp only [List.length_append, List.length_cons,
                      List.length_nil] at hlen ⊢
                    omega
                  obtain ⟨hperm, hg1, hg2, hg1M, hg2M⟩ :=
                    splitList_spec Node.boxOf m (cs.toList ++ [c]) h2m
                  have hlen2 : (cs.toList ++ [c]).length = M + 1 := by
                    simp only [List.length_append, List.length_cons,
                      List.length_nil] at hlen ⊢
                    omega
                  have hmem1 : ∀ x ∈ (splitList Node.boxOf m
                      (cs.toList ++ [c])).1,
                      x.wfb lb M = true ∧ x.heightOf = cs.heightMax :=
                    fun x hx => hmem x (hperm.mem_iff.mp
                      (List.mem_append_left _ hx))
                  have hmem2 : ∀ x ∈ (splitList Node.boxOf m
                      (cs.toList ++ [c])).2,
                      x.wfb lb M = true ∧ x.heightOf = cs.heightMax :=
                    fun x hx => hmem x (hperm.mem_iff.mp
                      (List.mem_append_right _ hx))
                  obtain ⟨hwa, hha⟩ := wfb_mkInner (le_trans hlb hg1)
                    (by omega) (by omega) hmem1
                  obtain ⟨hwb, hhb⟩ := wfb_mkInner (le_trans hlb hg2)
                    (by omega) (by omega) hmem2
                  refine ⟨hwa, hwb, by rw [hha, heightOf_inner]; omega,
                    by rw [hhb, heightOf_inner]; omega, ?_⟩
                  rw [mkInner_allItems, mkInner_allItems, hitems,
                    ← List.flatMap_append]
                  exact hperm.flatMap_right Node.allItems
  | succ d ih =>
      intro n hwf hh
      cases n with
      | leaf b its =>
          exfalso
          simp only [heightOf_leaf] at hh
          omega
      | inner b cs =>
          obtain ⟨hfill, hbx, hunif, hwfl⟩ := wfb_inner_iff.mp hwf
          rw [fillOK_iff] at hfill
          have hne : cs.toList ≠ [] := by
            cases hl : cs.toList with
            | nil => rw [hl] at hfill; simp at hfill
            | cons x xs => simp
          have hidx : chooseChildIdx e.boxOf cs.toList < cs.toList.length :=
            chooseChildIdx_lt e.boxOf cs.toList hne
          set i := chooseChildIdx e.boxOf cs.toList with hidef
          set ch := cs.toList.getD i default with hchdef
          have hchmem : ch ∈ cs.toList := getD_mem hidx
          have hchwf : ch.wfb lb M = true := wfbL_mem cs hwfl ch hchmem
          have hchh : ch.heightOf = cs.heightMax :=
            uniformFor_mem hunif hchmem
          simp only [heightOf_inner] at hh
          have hchd : ch.heightOf = d + e.heightE + 1 := by omega
          have IH := ih ch hchwf hchd
          have hitems : (Node.inner b cs).allItems = cs.toList.flatMap
              Node.allItems := by
            simp [allItems_inner, allItemsL_eq]
          constructor
          · intro n2 hn2
            simp only [insertRec, ← hidef, ← hchdef] at hn2
            cases hrec : insertRec m M e d ch with
            | inl c2 =>
                rw [hrec] at hn2
                simp only [] at hn2
                injection hn2 with hn2
                subst hn2
                obtain ⟨hw2, hht2, hpm2⟩ := IH.1 c2 hrec
                have hmem : ∀ x ∈ cs.toList.set i c2,
                    x.wfb lb M = true ∧ x.heightOf = cs.heightMax := by
                  intro x hx
                  rcases List.mem_or_eq_of_mem_set hx with hx | rfl
                  · exact ⟨wfbL_mem cs hwfl x hx, uniformFor_mem hunif hx⟩
                  · exact ⟨hw2, by rw [hht2, hchh]⟩
                have hmk : (mkInner (cs.toList.set i c2)).wfb lb M = true ∧
                    (mkInner (cs.toList.set i c2)).heightOf =
                      cs.heightMax + 1 :=
                  wfb_mkInner
                    (by rw [List.length_set]; exact hfill.1)
                    (by rw [List.length_set]; exact hfill.2.1)
                    (by rw [List.length_set]; exact hfill.2.2) hmem
                obtain ⟨hw, hht⟩ := hmk
                refine ⟨hw, by rw [hht, heightOf_inner]; omega, ?_⟩
                rw [mkInner_allItems, hitems]
                calc (cs.toList.set i c2).flatMap Node.allItems
                    ~ (c2 :: cs.toList.eraseIdx i).flatMap Node.allItems :=
                      (set_perm_cons _ i c2 hidx).flatMap_right _
                  _ = c2.allItems ++
                      (cs.toList.eraseIdx i).flatMap Node.allItems := by
                      simp
                  _ ~ (ch.allItems ++ e.allItemsE) ++
                      (cs.toList.eraseIdx i).flatMap Node.allItems :=
                      hpm2.append_right _
                  _ ~ (ch.allItems ++
                      (cs.toList.eraseIdx i).flatMap Node.allItems) ++
                      e.allItemsE := perm_shuffle _ _ _
                  _ = (ch :: cs.toList.eraseIdx i).flatMap Node.allItems ++
                      e.allItemsE := by simp
                  _ ~ cs.toList.flatMap Node.allItems ++ e.allItemsE :=
                      ((perm_getD_cons _ i hidx).flatMap_right
                        Node.allItems).symm.append_right _
            | inr p =>
                rw [hrec] at hn2
                simp only [] at hn2
                obtain ⟨hwa, hwb, hha, hhb, hpab⟩ := IH.2 p.1 p.2
                  (by rw [hrec])
                have hmem : ∀ x ∈ cs.toList.take i ++ [p.1, p.2] ++
                    cs.toList.drop (i + 1),
                    x.wfb lb M = true ∧ x.heightOf = cs.heightMax := by
                  intro x hx
                  rcases List.mem_append.mp hx with hx | hx
                  · rcases List.mem_append.mp hx with hx | hx
                    · have := List.take_subset i cs.toList hx
                      exact ⟨wfbL_mem cs hwfl x this,
                        uniformFor_mem hunif this⟩
                    · rcases List.mem_cons.mp hx with rfl | hx
                      · exact ⟨hwa, by rw [hha, hchh]⟩
                      · rw [List.mem_singleton.mp hx]
                        exact ⟨hwb, by rw [hhb, hchh]⟩
                  · have := List.drop_subset (i + 1) cs.toList hx
                    exact ⟨wfbL_mem cs hwfl x this,
                      uniformFor_mem hunif this⟩
                have hlen2 : (cs.toList.take i ++ [p.1, p.2] ++
                    cs.toList.drop (i + 1)).length = cs.toList.length + 1 := by
                  simp only [List.length_append, List.length_take,
                    List.length_cons, List.length_nil, List.length_drop]
                  omega
                have hpm : (cs.toList.take i ++ [p.1, p.2] ++
                    cs.toList.drop (i + 1)).flatMap Node.allItems ~
                    cs.toList.flatMap Node.allItems ++ e.allItemsE := by
                  calc (cs.toList.take i ++ [p.1, p.2] ++
                      cs.toList.drop (i + 1)).flatMap Node.allItems
                      ~ (p.1 :: p.2 :: cs.toList.eraseIdx i).flatMap
                        Node.allItems :=
                        (perm_insert_pair _ i p.1 p.2).flatMap_right _
                    _ = (p.1.allItems ++ p.2.allItems) ++
                        (cs.toList.eraseIdx i).flatMap Node.allItems := by
                        simp
                    _ ~ (ch.allItems ++ e.allItemsE) ++
                        (cs.toList.eraseIdx i).flatMap Node.allItems :=
                        hpab.append_right _
                    _ ~ (ch.allItems ++
                        (cs.toList.eraseIdx i).flatMap Node.allItems) ++
                        e.allItemsE := perm_shuffle _ _ _
                    _ = (ch :: cs.toList.eraseIdx i).flatMap Node.allItems ++
                        e.allItemsE := by simp
                    _ ~ cs.toList.flatMap Node.allItems ++ e.allItemsE :=
                        ((perm_getD_cons _ i hidx).flatMap_right
                          Node.allItems).symm.append_right _
                by_cases hlen : (cs.toList.take i ++ [p.1, p.2] ++
                    cs.toList.drop (i + 1)).length ≤ M
                · rw [if_pos hlen] at hn2
                  injection hn2 with hn2
                  subst hn2
                  obtain ⟨hw, hht⟩ := wfb_mkInner
                    (by omega) (by omega) hlen hmem
                  refine ⟨hw, by rw [hht, heightOf_inner]; omega, ?_⟩
                  rw [mkInner_allItems, hitems]
                  exact hpm
                · rw [if_neg hlen] at hn2
                  exact absurd hn2 (by simp)
          · intro a2 b2 hab
            simp only [insertRec, ← hidef, ← hchdef] at hab
            cases hrec : insertRec m M e d ch with
            | inl c2 =>
                rw [hrec] at hab
                simp only [] at hab
                exact absurd hab (by simp)
            | inr p =>
                rw [hrec] at hab
                simp only [] at hab
                obtain ⟨hwa, hwb, hha, hhb, hpab⟩ := IH.2 p.1 p.2
                  (by rw [hrec])
                have hmem : ∀ x ∈ cs.toList.take i ++ [p.1, p.2] ++
                    cs.toList.drop (i + 1),
                    x.wfb lb M = true ∧ x.heightOf = cs.heightMax := by
                  intro x hx
                  rcases List.mem_append.mp hx with hx | hx
                  · rcases List.mem_append.mp hx with hx | hx
                    · have := List.take_subset i cs.toList hx
                      exact ⟨wfbL_mem cs hwfl x this,
                        uniformFor_mem hunif this⟩
                    · rcases List.mem_cons.mp hx with rfl | hx
                      · exact ⟨hwa, by rw [hha, hchh]⟩
                      · rw [List.mem_singleton.mp hx]
                        exact ⟨hwb, by rw [hhb, hchh]⟩
                  · have := List.drop_subset (i + 1) cs.toList hx
                    exact ⟨wfbL_mem cs hwfl x this,
                      uniformFor_mem hunif this⟩
                have hlen2 : (cs.toList.take i ++ [p.1, p.2] ++
                    cs.toList.drop (i + 1)).length = cs.toList.length + 1 := by
                  simp only [List.length_append, List.length_take,
                    List.length_cons, List.length_nil, List.length_drop]
                  omega
                have hpm : (cs.toList.take i ++ [p.1, p.2] ++
                    cs.toList.drop (i + 1)).flatMap Node.allItems ~
                    cs.toList.flatMap Node.allItems ++ e.allItemsE := by
                  calc (cs.toList.take i ++ [p.1, p.2] ++
                      cs.toList.drop (i + 1)).flatMap Node.allItems
                      ~ (p.1 :: p.2 :: cs.toList.eraseIdx i).flatMap
                        Node.allItems :=
                        (perm_insert_pair _ i p.1 p.2).flatMap_right _
                    _ = (p.1.allItems ++ p.2.allItems) ++
                        (cs.toList.eraseIdx i).flatMap Node.allItems := by
                        simp
                    _ ~ (ch.allItems ++ e.allItemsE) ++
                        (cs.toList.eraseIdx i).flatMap Node.allItems :=
                        hpab.append_right _
                    _ ~ (ch.allItems ++
                        (cs.toList.eraseIdx i).flatMap Node.allItems) ++
                        e.allItemsE := perm_shuffle _ _ _
                    _ = (ch :: cs.toList.eraseIdx i).flatMap Node.allItems ++
                        e.allItemsE := by simp
                    _ ~ cs.toList.flatMap Node.allItems ++ e.allItemsE :=
                        ((perm_getD_cons _ i hidx).flatMap_right
                          Node.allItems).symm.append_right _
                by_cases hlen : (cs.toList.take i ++ [p.1, p.2] ++
                    cs.toList.drop (i + 1)).length ≤ M
                · rw [if_pos hlen] at hab
                  exact absurd hab (by simp)
                · rw [if_neg hlen] at hab
                  injection hab with hab
                  injection hab with hE1 hE2
                  subst hE1
                  subst hE2
                  have h2m : 2 * m ≤ (cs.toList.take i ++ [p.1, p.2] ++
                      cs.toList.drop (i + 1)).length := by omega
                  obtain ⟨hperm, hg1, hg2, hg1M, hg2M⟩ :=
                    splitList_spec Node.boxOf m _ h2m
                  have hmem1 : ∀ x ∈ (splitList Node.boxOf m
                      (cs.toList.take i ++ [p.1, p.2] ++
                        cs.toList.drop (i + 1))).1,
                      x.wfb lb M = true ∧ x.heightOf = cs.heightMax :=
                    fun x hx => hmem x (hperm.mem_iff.mp
                      (List.mem_append_left _ hx))
                  have hmem2 : ∀ x ∈ (splitList Node.boxOf m
                      (cs.toList.take i ++ [p.1, p.2] ++
                        cs.toList.drop (i + 1))).2,
                      x.wfb lb M = true ∧ x.heightOf = cs.heightMax :=
                    fun x hx => hmem x (hperm.mem_iff.mp
                      (List.mem_append_right _ hx))
                  have hlen3 : (cs.toList.take i ++ [p.1, p.2] ++
                      cs.toList.drop (i + 1)).length = M + 1 := by omega
                  obtain ⟨hwa2, hha2⟩ := wfb_mkInner (le_trans hlb hg1)
                    (by omega) (by omega) hmem1
                  obtain ⟨hwb2, hhb2⟩ := wfb_mkInner (le_trans hlb hg2)
                    (by omega) (by omega) hmem2
                  refine ⟨hwa2, hwb2, by rw [hha2, heightOf_inner]; omega,
                    by rw [hhb2, heightOf_inner]; omega, ?_⟩
                  rw [mkInner_allItems, mkInner_allItems, hitems,
                    ← List.flatMap_append]
                  exact ((hperm.flatMap_right Node.allItems).trans hpm)

/-- Building an interior root node from well-formed children of one
height. -/
theorem wfRootb_mkInner {lb M h : ℕ} {l : List Node}
    (h1 : min 2 lb ≤ l.length) (h1b : 1 ≤ l.length) (hM : l.length ≤ M)
    (hall : ∀ c ∈ l, c.wfb lb M = true ∧ c.heightOf = h) :
    (mkInner l).wfRootb lb M = true ∧ (mkInner l).heightOf = h + 1 := by
  constructor
  · rw [mkInner, wfRootb_inner_iff]
    refine ⟨?_, ?_, ?_, ?_⟩
    · simp only [NodeList.toList_ofList, fillOK, Bool.and_eq_true,
        decide_eq_true_eq]
      exact ⟨⟨h1, h1b⟩, hM⟩
    · rw [NodeList.toList_ofList]
    · exact uniformFor_ofList fun c hc => (hall c hc).2
    · exact wfbL_intro fun c hc => (hall c hc).1
  · have hne : l ≠ [] := by
      cases l with
      | nil => simp at h1b
      | cons => simp
    simp only [mkInner, Node.heightOf]
    rw [heightMax_ofList_const hne fun c hc => (hall c hc).2]
    omega

theorem wfRootb_mkLeaf {lb M : ℕ} {its : List Item} (hM : its.length ≤ M) :
    (mkLeaf its).wfRootb lb M = true := by
  rw [mkLeaf, wfRootb_leaf_iff]
  exact ⟨hM, rfl⟩

/-- A well-formed non-root node also satisfies the root invariants. -/
theorem wfb_imp_wfRootb {lb M : ℕ} {n : Node} (h : n.wfb lb M = true) :
    n.wfRootb lb M = true := by
  cases n with
  | leaf b its =>
      obtain ⟨hf, hb⟩ := wfb_leaf_iff.mp h
      rw [fillOK_iff] at hf
      exact wfRootb_leaf_iff.mpr ⟨hf.2.2, hb⟩
  | inner b cs =>
      obtain ⟨hf, hb, hu, hl⟩ := wfb_inner_iff.mp h
      rw [fillOK_iff] at hf
      exact wfRootb_inner_iff.mpr
        ⟨fillOK_iff.mpr ⟨by omega, hf.2.1, hf.2.2⟩, hb, hu, hl⟩

/-- Insertion at the root preserves the root invariants, adds exactly
the entry's items, and never lowers the tree height. -/
theorem insertEntryRoot_wf {lb m M : ℕ} (hlb : lb ≤ m) (hm : 2 ≤ m)
    (hM : 2 * m ≤ M + 1) (root : Node) (e : Entry)
    (hr : root.wfRootb lb M = true)
    (he : ∀ c, e = .node c → c.wfb lb M = true ∧
      c.heightOf + 1 ≤ root.heightOf) :
    (insertEntryRoot m M root e).wfRootb lb M = true ∧
    (insertEntryRoot m M root e).allItems.Perm
      (root.allItems ++ e.allItemsE) ∧
    root.heightOf ≤ (insertEntryRoot m M root e).heightOf := by
  have hM2 : 2 ≤ M := by omega
  cases root with
  | leaf b its =>
      cases e with
      | node c =>
          exfalso
          obtain ⟨-, hch⟩ := he c rfl
          have := heightOf_pos c
          simp only [heightOf_leaf] at hch
          omega
      | item it =>
          obtain ⟨hM0, hbx⟩ := wfRootb_leaf_iff.mp hr
          rw [insertEntryRoot]
          simp only [heightOf_leaf, Entry.heightE, Nat.sub_self]
          simp only [insertRec]
          by_cases hlen : (its ++ [it]).length ≤ M
          · rw [if_pos hlen]
            refine ⟨wfRootb_mkLeaf hlen, ?_, by simp [mkLeaf_height]⟩
            rw [mkLeaf_allItems]
            exact List.Perm.refl _
          · rw [if_neg hlen]
            have h2m : 2 * m ≤ (its ++ [it]).length := by
              simp only [List.length_append, List.length_cons,
                List.length_nil] at hlen ⊢
              omega
            obtain ⟨hperm, hg1, hg2, hg1M, hg2M⟩ :=
              splitList_spec Item.box m (its ++ [it]) h2m
            have hlen2 : (its ++ [it]).length = M + 1 := by
              simp only [List.length_append, List.length_cons,
                List.length_nil] at hlen ⊢
              omega
            have hw1 : (mkLeaf (splitList Item.box m (its ++ [it])).1).wfb
                lb M = true :=
              wfb_mkLeaf (le_trans hlb hg1) (by omega) (by omega)
            have hw2 : (mkLeaf (splitList Item.box m (its ++ [it])).2).wfb
                lb M = true :=
              wfb_mkLeaf (le_trans hlb hg2) (by omega) (by omega)
            have hmk : (mkInner [mkLeaf (splitList Item.box m
                  (its ++ [it])).1,
                mkLeaf (splitList Item.box m (its ++ [it])).2]).wfRootb
                  lb M = true ∧
                (mkInner [mkLeaf (splitList Item.box m (its ++ [it])).1,
                  mkLeaf (splitList Item.box m (its ++ [it])).2]).heightOf =
                  1 + 1 :=
              wfRootb_mkInner (by simp) (by simp) (by simp; omega)
                (by
                  intro c hc
                  rcases List.mem_cons.mp hc with rfl | hc
                  · exact ⟨hw1, rfl⟩
                  · rw [List.mem_singleton.mp hc]
                    exact ⟨hw2, rfl⟩)
            obtain ⟨hwr, hhr⟩ := hmk
            refine ⟨hwr, ?_, by rw [hhr]; simp⟩
            rw [mkInner_allItems]
            simp only [List.flatMap_cons, List.flatMap_nil,
              mkLeaf_allItems, List.append_nil]
            exact hperm
  | inner b cs =>
      obtain ⟨hfill, hbx, hunif, hwfl⟩ := wfRootb_inner_iff.mp hr
      rw [fillOK_iff] at hfill
      have hne : cs.toList ≠ [] := by
        cases hl : cs.toList with
        | nil => rw [hl] at hfill; simp at hfill
        | cons x xs => simp
      have hHpos : 1 ≤ cs.heightMax := by
        obtain ⟨c, hc⟩ : ∃ c, c ∈ cs.toList := by
          cases hl : cs.toList with
          | nil => exact absurd hl hne
          | cons x xs => exact ⟨x, hl ▸ List.mem_cons_self x xs⟩
        have h1 := uniformFor_mem hunif hc
        have h2 := heightOf_pos c
        omega
      have hitems : (Node.inner b cs).allItems = cs.toList.flatMap
          Node.allItems := by
        simp [allItems_inner, allItemsL_eq]
      rw [insertEntryRoot]
      by_cases hd0 : (Node.inner b cs).heightOf - (e.heightE + 1) = 0
      · -- the entry is adjoined directly to the root's child list
        cases e with
        | item it =>
            exfalso
            simp only [heightOf_inner, Entry.heightE] at hd0
            omega
        | node c =>
            obtain ⟨hce, hch0⟩ := he c rfl
            simp only [heightOf_inner, Entry.heightE] at hd0 hch0
            have hch : c.heightOf = cs.heightMax := by omega
            have hgoal : (Node.inner b cs).heightOf -
                ((Entry.node c).heightE + 1) = 0 := by
              simp only [heightOf_inner, Entry.heightE]
              omega
            rw [hgoal]
            simp only [insertRec]
            have hmem : ∀ x ∈ cs.toList ++ [c],
                x.wfb lb M = true ∧ x.heightOf = cs.heightMax := by
              intro x hx
              rcases List.mem_append.mp hx with hx | hx
              · exact ⟨wfbL_mem cs hwfl x hx, uniformFor_mem hunif hx⟩
              · rw [List.mem_singleton.mp hx]
                exact ⟨hce, hch⟩
            have hitems2 : (cs.toList ++ [c]).flatMap Node.allItems =
                (Node.inner b cs).allItems ++ (Entry.node c).allItemsE := by
              simp [allItems_inner, Entry.allItemsE, allItemsL_eq]
            by_cases hlen : (cs.toList ++ [c]).length ≤ M
            · rw [if_pos hlen]
              have hmk : (mkInner (cs.toList ++ [c])).wfRootb lb M = true ∧
                  (mkInner (cs.toList ++ [c])).heightOf =
                    cs.heightMax + 1 :=
                wfRootb_mkInner
                  (by simp only [List.length_append, List.length_cons,
                    List.length_nil]; omega)
                  (by simp) hlen hmem
              obtain ⟨hwr, hhr⟩ := hmk
              refine ⟨hwr, ?_, ?_⟩
              · rw [mkInner_allItems, hitems2]
              · rw [hhr, heightOf_inner]
                omega
            · rw [if_neg hlen]
              have h2m : 2 * m ≤ (cs.toList ++ [c]).length := by
                simp only [List.length_append, List.length_cons,
                  List.length_nil] at hlen ⊢
                omega
              obtain ⟨hperm, hg1, hg2, hg1M, hg2M⟩ :=
                splitList_spec Node.boxOf m (cs.toList ++ [c]) h2m
              have hlen2 : (cs.toList ++ [c]).length = M + 1 := by
                simp only [List.length_append, List.length_cons,
                  List.length_nil] at hlen ⊢
                omega
              have hmem1 : ∀ x ∈ (splitList Node.boxOf m
                  (cs.toList ++ [c])).1,
                  x.wfb lb M = true ∧ x.heightOf = cs.heightMax :=
                fun x hx => hmem x (hperm.mem_iff.mp
                  (List.mem_append_left _ hx))
              have hmem2 : ∀ x ∈ (splitList Node.boxOf m
                  (cs.toList ++ [c])).2,
                  x.wfb lb M = true ∧ x.heightOf = cs.heightMax :=
                fun x hx => hmem x (hperm.mem_iff.mp
                  (List.mem_append_right _ hx))
              obtain ⟨hwa, hha⟩ := wfb_mkInner (le_trans hlb hg1)
                (by omega) (by omega) hmem1
              obtain ⟨hwb, hhb⟩ := wfb_mkInner (le_trans hlb hg2)
                (by omega) (by omega) hmem2
              have hmk : (mkInner [mkInner (splitList Node.boxOf m
                    (cs.toList ++ [c])).1,
                  mkInner (splitList Node.boxOf m
                    (cs.toList ++ [c])).2]).wfRootb lb M = true ∧
                  (mkInner [mkInner (splitList Node.boxOf m
                      (cs.toList ++ [c])).1,
                    mkInner (splitList Node.boxOf m
                      (cs.toList ++ [c])).2]).heightOf =
                    (cs.heightMax + 1) + 1 :=
                wfRootb_mkInner (by simp) (by simp) (by simp; omega)
                  (by
                    intro x hx
                    rcases List.mem_cons.mp hx with rfl | hx
                    · exact ⟨hwa, hha⟩
                    · rw [List.mem_singleton.mp hx]
                      exact ⟨hwb, hhb⟩)
              obtain ⟨hwr, hhr⟩ := hmk
              refine ⟨hwr, ?_, ?_⟩
              · rw [mkInner_allItems]
                simp only [List.flatMap_cons, List.flatMap_nil,
                  mkInner_allItems, List.append_nil]
                rw [← List.flatMap_append, ← hitems2]
                exact hperm.flatMap_right Node.allItems
              · rw [hhr, heightOf_inner]
                omega
      · -- descend into the chosen subtree
        obtain ⟨d, hd⟩ : ∃ d, (Node.inner b cs).heightOf -
            (e.heightE + 1) = d + 1 := by
          cases hdd : (Node.inner b cs).heightOf - (e.heightE + 1) with
          | zero => exact absurd hdd hd0
          | succ k => exact ⟨k, rfl⟩
        rw [hd]
        have hHe : cs.heightMax = d + 1 + e.heightE := by
          simp only [heightOf_inner] at hd
          cases e with
          | item it => simp only [Entry.heightE] at hd ⊢; omega
          | node c =>
              obtain ⟨-, hch0⟩ := he c rfl
              simp only [heightOf_inner, Entry.heightE] at hd hch0 ⊢
              omega
        have hidx : chooseChildIdx e.boxOf cs.toList < cs.toList.length :=
          chooseChildIdx_lt e.boxOf cs.toList hne
        set i := chooseChildIdx e.boxOf cs.toList with hidef
        set ch := cs.toList.getD i default with hchdef
        have hchmem : ch ∈ cs.toList := getD_mem hidx
        have hchwf : ch.wfb lb M = true := wfbL_mem cs hwfl ch hchmem
        have hchh : ch.heightOf = cs.heightMax :=
          uniformFor_mem hunif hchmem
        have hchd : ch.heightOf = d + e.heightE + 1 := by omega
        have IH := insertRec_wf hlb hm hM e
          (fun c hc => (he c hc).1) d ch hchwf hchd
        simp only [insertRec, ← hidef, ← hchdef]
        cases hrec : insertRec m M e d ch with
        | inl c2 =>
            dsimp only
            obtain ⟨hw2, hht2, hpm2⟩ := IH.1 c2 hrec
            have hmem : ∀ x ∈ cs.toList.set i c2,
                x.wfb lb M = true ∧ x.heightOf = cs.heightMax := by
              intro x hx
              rcases List.mem_or_eq_of_mem_set hx with hx | rfl
              · exact ⟨wfbL_mem cs hwfl x hx, uniformFor_mem hunif hx⟩
              · exact ⟨hw2, by rw [hht2, hchh]⟩
            have hmk : (mkInner (cs.toList.set i c2)).wfRootb lb M = true ∧
                (mkInner (cs.toList.set i c2)).heightOf =
                  cs.heightMax + 1 :=
              wfRootb_mkInner
                (by rw [List.length_set]; exact hfill.1)
                (by rw [List.length_set]; exact hfill.2.1)
                (by rw [List.length_set]; exact hfill.2.2) hmem
            obtain ⟨hwr, hhr⟩ := hmk
            refine ⟨hwr, ?_, by rw [hhr, heightOf_inner]; omega⟩
            rw [mkInner_allItems, hitems]
            calc (cs.toList.set i c2).flatMap Node.allItems
                ~ (c2 :: cs.toList.eraseIdx i).flatMap Node.allItems :=
                  (set_perm_cons _ i c2 hidx).flatMap_right _
              _ = c2.allItems ++
                  (cs.toList.eraseIdx i).flatMap Node.allItems := by simp
              _ ~ (ch.allItems ++ e.allItemsE) ++
                  (cs.toList.eraseIdx i).flatMap Node.allItems :=
                  hpm2.append_right _
              _ ~ (ch.allItems ++
                  (cs.toList.eraseIdx i).flatMap Node.allItems) ++
                  e.allItemsE := perm_shuffle _ _ _
              _ = (ch :: cs.toList.eraseIdx i).flatMap Node.allItems ++
                  e.allItemsE := by simp
              _ ~ cs.toList.flatMap Node.allItems ++ e.allItemsE :=
                  ((perm_getD_cons _ i hidx).flatMap_right
                    Node.allItems).symm.append_right _
        | inr p =>
            dsimp only
            obtain ⟨hwa, hwb, hha, hhb, hpab⟩ := IH.2 p.1 p.2
              (by rw [hrec])
            have hmem : ∀ x ∈ cs.toList.take i ++ [p.1, p.2] ++
                cs.toList.drop (i + 1),
                x.wfb lb M = true ∧ x.heightOf = cs.heightMax := by
              intro x hx
              rcases List.mem_append.mp hx with hx | hx
              · rcases List.mem_append.mp hx with hx | hx
                · have := List.take_subset i cs.toList hx
                  exact ⟨wfbL_mem cs hwfl x this,
                    uniformFor_mem hunif this⟩
                · rcases List.mem_cons.mp hx with rfl | hx
                  · exact ⟨hwa, by rw [hha, hchh]⟩
                  · rw [List.mem_singleton.mp hx]
                    exact ⟨hwb, by rw [hhb, hchh]⟩
              · have := List.drop_subset (i + 1) cs.toList hx
                exact ⟨wfbL_mem cs hwfl x this,
                  uniformFor_mem hunif this⟩
            have hlen2 : (cs.toList.take i ++ [p.1, p.2] ++
                cs.toList.drop (i + 1)).length = cs.toList.length + 1 := by
              simp only [List.length_append, List.length_take,
                List.length_cons, List.length_nil, List.length_drop]
              omega
            have hpm : (cs.toList.take i ++ [p.1, p.2] ++
                cs.toList.drop (i + 1)).flatMap Node.allItems ~
                cs.toList.flatMap Node.allItems ++ e.allItemsE := by
              calc (cs.toList.take i ++ [p.1, p.2] ++
                  cs.toList.drop (i + 1)).flatMap Node.allItems
                  ~ (p.1 :: p.2 :: cs.toList.eraseIdx i).flatMap
                    Node.allItems :=
                    (perm_insert_pair _ i p.1 p.2).flatMap_right _
                _ = (p.1.allItems ++ p.2.allItems) ++
                    (cs.toList.eraseIdx i).flatMap Node.allItems := by simp
                _ ~ (ch.allItems ++ e.allItemsE) ++
                    (cs.toList.eraseIdx i).flatMap Node.allItems :=
                    hpab.append_right _
                _ ~ (ch.allItems ++
                    (cs.toList.eraseIdx i).flatMap Node.allItems) ++
                    e.allItemsE := perm_shuffle _ _ _
                _ = (ch :: cs.toList.eraseIdx i).flatMap Node.allItems ++
                    e.allItemsE := by simp
                _ ~ cs.toList.flatMap Node.allItems ++ e.allItemsE :=
                    ((perm_getD_cons _ i hidx).flatMap_right
                      Node.allItems).symm.append_right _
            by_cases hlen : (cs.toList.take i ++ [p.1, p.2] ++
                cs.toList.drop (i + 1)).length ≤ M
            · rw [if_pos hlen]
              obtain ⟨hwr, hhr⟩ := wfRootb_mkInner (by omega) (by omega)
                hlen hmem
              refine ⟨hwr, ?_, by rw [hhr, heightOf_inner]; omega⟩
              rw [mkInner_allItems, hitems]
              exact hpm
            · rw [if_neg hlen]
              have h2m : 2 * m ≤ (cs.toList.take i ++ [p.1, p.2] ++
                  cs.toList.drop (i + 1)).length := by omega
              obtain ⟨hperm, hg1, hg2, hg1M, hg2M⟩ :=
                splitList_spec Node.boxOf m _ h2m
              have hmem1 : ∀ x ∈ (splitList Node.boxOf m
                  (cs.toList.take i ++ [p.1, p.2] ++
                    cs.toList.drop (i + 1))).1,
                  x.wfb lb M = true ∧ x.heightOf = cs.heightMax :=
                fun x hx => hmem x (hperm.mem_iff.mp
                  (List.mem_append_left _ hx))
              have hmem2 : ∀ x ∈ (splitList Node.boxOf m
                  (cs.toList.take i ++ [p.1, p.2] ++
                    cs.toList.drop (i + 1))).2,
                  x.wfb lb M = true ∧ x.heightOf = cs.heightMax :=
                fun x hx => hmem x (hperm.mem_iff.mp
                  (List.mem_append_right _ hx))
              obtain ⟨hwa2, hha2⟩ := wfb_mkInner (le_trans hlb hg1)
                (by omega) (by omega) hmem1
              obtain ⟨hwb2, hhb2⟩ := wfb_mkInner (le_trans hlb hg2)
                (by omega) (by omega) hmem2
              have hmk : (mkInner [mkInner (splitList Node.boxOf m
                    (cs.toList.take i ++ [p.1, p.2] ++
                      cs.toList.drop (i + 1))).1,
                  mkInner (splitList Node.boxOf m
                    (cs.toList.take i ++ [p.1, p.2] ++
                      cs.toList.drop (i + 1))).2]).wfRootb lb M = true ∧
                  (mkInner [mkInner (splitList Node.boxOf m
                      (cs.toList.take i ++ [p.1, p.2] ++
                        cs.toList.drop (i + 1))).1,
                    mkInner (splitList Node.boxOf m
                      (cs.toList.take i ++ [p.1, p.2] ++
                        cs.toList.drop (i + 1))).2]).heightOf =
                    (cs.heightMax + 1) + 1 :=
                wfRootb_mkInner (by simp) (by simp) (by simp; omega)
                  (by
                    intro x hx
                    rcases List.mem_cons.mp hx with rfl | hx
                    · exact ⟨hwa2, hha2⟩
                    · rw [List.mem_singleton.mp hx]
                      exact ⟨hwb2, hhb2⟩)
              obtain ⟨hwr, hhr⟩ := hmk
              refine ⟨hwr, ?_, by rw [hhr, heightOf_inner]; omega⟩
              rw [mkInner_allItems]
              simp only [List.flatMap_cons, List.flatMap_nil,
                mkInner_allItems, List.append_nil]
              rw [hitems, ← List.flatMap_append]
              exact ((hperm.flatMap_right Node.allItems).trans hpm)

/-! ## Bulk loading (§4.5)

Modelled from the spec: the Sort-Tile-Recursive bulk loader: sort by
item-centre X, cut into vertical slices, sort each slice by item-centre
Y, pack consecutive runs of `M` items into leaves, then pack the
resulting nodes upward with fan-out `M` until a single root remains
(§4.5 steps 2 to 4). -/

/-- Consecutive chunks of at most `k` elements (the final chunk may be
shorter). -/
def chunksOfF {α : Type} (k : ℕ) : ℕ → List α → List (List α)
  | _, [] => []
  | 0, a :: rest => [a :: rest]
  | fuel + 1, a :: rest =>
      (a :: rest.take (k - 1)) :: chunksOfF k fuel (rest.drop (k - 1))

def chunksOf {α : Type} (k : ℕ) (l : List α) : List (List α) :=
  chunksOfF k l.length l

theorem chunksOf_nil {α : Type} (k : ℕ) : chunksOf k ([] : List α) = [] :=
  rfl

theorem chunksOfF_eq {α : Type} (k : ℕ) : ∀ (fuel : ℕ) (l : List α),
    l.length ≤ fuel → chunksOfF k fuel l = chunksOf k l
  | fuel, [] => by
      intro _
      cases fuel <;> rfl
  | 0, a :: rest => by
      intro h
      simp at h
  | fuel + 1, a :: rest => by
      intro h
      simp only [List.length_cons] at h
      show (a :: rest.take (k - 1)) :: chunksOfF k fuel (rest.drop (k - 1)) =
        chunksOf k (a :: rest)
      rw [chunksOfF_eq k fuel (rest.drop (k - 1)) (by
        simp only [List.length_drop]
        omega)]
      show _ = (a :: rest.take (k - 1)) ::
        chunksOfF k rest.length (rest.drop (k - 1))
      rw [chunksOfF_eq k rest.length (rest.drop (k - 1)) (by
        simp only [List.length_drop]
        omega)]
termination_by fuel _ => fuel
decreasing_by all_goals (simp only [List.length_cons] at *; omega)

theorem chunksOf_cons {α : Type} (k : ℕ) (a : α) (rest : List α) :
    chunksOf k (a :: rest) =
    (a :: rest.take (k - 1)) :: chunksOf k (rest.drop (k - 1)) := by
  show (a :: rest.take (k - 1)) ::
    chunksOfF k rest.length (rest.drop (k - 1)) = _
  rw [chunksOfF_eq k rest.length (rest.drop (k - 1)) (by
    simp only [List.length_drop]
    omega)]

theorem chunksOf_flatten {α : Type} (k : ℕ) : ∀ l : List α,
    (chunksOf k l).flatten = l
  | [] => rfl
  | a :: rest => by
      have ih := chunksOf_flatten k (rest.drop (k - 1))
      rw [chunksOf_cons]
      simp only [List.flatten_cons, ih, List.cons_append,
        List.take_append_drop]
termination_by l => l.length
decreasing_by simp only [List.length_drop, List.length_cons]; omega

theorem chunksOf_mem {α : Type} (k : ℕ) (hk : 1 ≤ k) :
    ∀ (l : List α) (c : List α),
    c ∈ chunksOf k l → 1 ≤ c.length ∧ c.length ≤ k
  | [], c => by intro h; simp [chunksOf_nil] at h
  | a :: rest, c => by
      intro h
      rw [chunksOf_cons] at h
      simp only [List.mem_cons] at h
      rcases h with rfl | h
      · simp only [List.length_cons, List.length_take]
        omega
      · exact chunksOf_mem k hk (rest.drop (k - 1)) c h
termination_by l => l.length
decreasing_by simp only [List.length_drop, List.length_cons]; omega

theorem chunksOf_count {α : Type} (k : ℕ) (hk : 2 ≤ k) : ∀ l : List α,
    2 * (chunksOf k l).length ≤ l.length + 1
  | [] => by simp [chunksOf_nil]
  | a :: rest => by
      have ih := chunksOf_count k hk (rest.drop (k - 1))
      rw [chunksOf_cons]
      simp only [List.length_cons, List.length_drop] at ih ⊢
      omega
termination_by l => l.length
decreasing_by simp only [List.length_drop, List.length_cons]; omega

theorem flatMap_flatten {α β : Type} (f : α → List β) : ∀ L : List (List α),
    L.flatten.flatMap f = L.flatMap (fun l => l.flatMap f)
  | [] => rfl
  | l :: L => by
      simp [List.flatMap_append, flatMap_flatten f L]

/-- Modelled from the spec: pack a level of subtrees into interior
nodes of fan-out `M`, and continue upward until a single root remains
(§4.5 step 4).  The fuel argument bounds the number of rounds; callers
pass the list length. -/
def packUp (M : ℕ) : ℕ → List Node → Node
  | _, [] => Node.leaf emptyBox []
  | _, [n] => n
  | 0, n :: _ :: _ => n
  | fuel + 1, a :: b :: rest =>
      packUp M fuel ((chunksOf (max 2 M) (a :: b :: rest)).map mkInner)

theorem wfRootb_emptyLeaf (lb M : ℕ) :
    (Node.leaf emptyBox []).wfRootb lb M = true := by
  rw [wfRootb_leaf_iff]
  exact ⟨Nat.zero_le M, rfl⟩

theorem packUp_wf {M : ℕ} (hM : 2 ≤ M) : ∀ (fuel : ℕ) (ns : List Node)
    (h : ℕ), ns.length ≤ fuel + 1 →
    (∀ c ∈ ns, c.wfb 1 M = true ∧ c.heightOf = h) →
    (packUp M fuel ns).wfRootb 1 M = true ∧
    (packUp M fuel ns).allItems.Perm (ns.flatMap Node.allItems) := by
  intro fuel
  induction fuel with
  | zero =>
      intro ns h hlen hall
      match ns, hlen with
      | [], _ =>
          exact ⟨wfRootb_emptyLeaf 1 M, by simp [packUp, Node.allItems]⟩
      | [n], _ =>
          refine ⟨wfb_imp_wfRootb (hall n (by simp)).1, ?_⟩
          simp [packUp]
      | a :: b :: rest, hlen => simp at hlen
  | succ fuel ih =>
      intro ns h hlen hall
      match ns with
      | [] =>
          exact ⟨wfRootb_emptyLeaf 1 M, by simp [packUp, Node.allItems]⟩
      | [n] =>
          refine ⟨wfb_imp_wfRootb (hall n (by simp)).1, ?_⟩
          simp [packUp]
      | a :: b :: rest =>
          have hM2 : max 2 M = M := by omega
          have hcnt := chunksOf_count (max 2 M) (by omega)
            (a :: b :: rest)
          have hall2 : ∀ c ∈ (chunksOf (max 2 M) (a :: b :: rest)).map
              mkInner, c.wfb 1 M = true ∧ c.heightOf = h + 1 := by
            intro c hc
            obtain ⟨ch, hch, rfl⟩ := List.mem_map.mp hc
            obtain ⟨h1, h2⟩ := chunksOf_mem _ (by omega) _ ch hch
            have hsub : ∀ x ∈ ch, x ∈ a :: b :: rest := by
              intro x hx
              have : x ∈ (chunksOf (max 2 M) (a :: b :: rest)).flatten :=
                List.mem_flatten.mpr ⟨ch, hch, hx⟩
              rwa [chunksOf_flatten] at this
            exact wfb_mkInner (by omega) h1 (by omega)
              (fun x hx => hall x (hsub x hx))
          have hrec := ih ((chunksOf (max 2 M) (a :: b :: rest)).map
            mkInner) (h + 1)
            (by
              rw [List.length_map]
              simp only [List.length_cons] at hlen hcnt
              omega)
            hall2
          rw [packUp]
          refine ⟨hrec.1, hrec.2.trans ?_⟩
          have : ((chunksOf (max 2 M) (a :: b :: rest)).map
              mkInner).flatMap Node.allItems =
              (a :: b :: rest).flatMap Node.allItems := by
            rw [List.flatMap_map]
            have h2 : (fun ch => (mkInner ch).allItems) =
                (fun ch : List Node => ch.flatMap Node.allItems) := by
              funext ch
              exact mkInner_allItems ch
            rw [h2, ← flatMap_flatten, chunksOf_flatten]
          rw [this]

/-- Item-centre sort keys (§4.5 step 2 and 3); the doubled centre
coordinate sorts identically to the centre. -/
def itemCenterX (it : Item) : ℚ := it.box.minX + it.box.maxX

def itemCenterY (it : Item) : ℚ := it.box.minY + it.box.maxY

/-- Ceiling of the square root: the least `s` with `n ≤ s * s`. -/
def ceilSqrt (n : ℕ) : ℕ :=
  ((List.range (n + 1)).find? (fun s => n ≤ s * s)).getD n

/-- Modelled from the spec: the STR bulk loader (§4.5): sort by
item-centre X, partition into `S = ceil(sqrt(ceil(N / M)))` vertical
slices, sort each slice by item-centre Y, emit leaves of up to `M`
items, and pack the leaf level upward with fan-out `M`. -/
def strLoad (M : ℕ) (items : List Item) : Node :=
  if items.isEmpty then Node.leaf emptyBox []
  else
    let M2 := max 2 M
    let leafCount := (items.length + M2 - 1) / M2
    let sliceSize := ceilSqrt leafCount * M2
    let sorted := sortByKey itemCenterX items
    let slices := chunksOf sliceSize sorted
    let tiled := (slices.map (sortByKey itemCenterY)).flatten
    let leaves := (chunksOf M2 tiled).map mkLeaf
    packUp M leaves.length leaves

theorem flatten_map_sort_perm {α : Type} (f : List α → List α)
    (hf : ∀ l, (f l).Perm l) : ∀ L : List (List α),
    ((L.map f).flatten).Perm L.flatten
  | [] => List.Perm.refl _
  | l :: L => by
      simp only [List.map_cons, List.flatten_cons]
      exact (hf l).append (flatten_map_sort_perm f hf L)

theorem flatMap_self {α : Type} : ∀ L : List (List α),
    L.flatMap (fun l => l) = L.flatten
  | [] => rfl
  | l :: L => by simp [flatMap_self L]

theorem strLoad_wf {M : ℕ} (hM : 2 ≤ M) (items : List Item) :
    (strLoad M items).wfRootb 1 M = true ∧
    (strLoad M items).allItems.Perm items := by
  rw [strLoad]
  by_cases hemp : items.isEmpty
  · rw [if_pos hemp]
    rw [List.isEmpty_iff] at hemp
    subst hemp
    exact ⟨wfRootb_emptyLeaf 1 M, by simp [Node.allItems]⟩
  · rw [if_neg hemp]
    have hM2 : max 2 M = M := by omega
    set tiled := ((chunksOf (ceilSqrt ((items.length + max 2 M - 1) /
        max 2 M) * max 2 M) (sortByKey itemCenterX items)).map
        (sortByKey itemCenterY)).flatten with htiled
    have htp : tiled.Perm items := by
      rw [htiled]
      refine (flatten_map_sort_perm _
        (fun l => sortByKey_perm itemCenterY l) _).trans ?_
      rw [chunksOf_flatten]
      exact sortByKey_perm itemCenterX items
    have hall : ∀ c ∈ (chunksOf (max 2 M) tiled).map mkLeaf,
        c.wfb 1 M = true ∧ c.heightOf = 1 := by
      intro c hc
      obtain ⟨ch, hch, rfl⟩ := List.mem_map.mp hc
      obtain ⟨h1, h2⟩ := chunksOf_mem _ (by omega) _ ch hch
      exact ⟨wfb_mkLeaf h1 h1 (by omega), mkLeaf_height ch⟩
    have hpk := packUp_wf hM ((chunksOf (max 2 M) tiled).map mkLeaf).length
      ((chunksOf (max 2 M) tiled).map mkLeaf) 1 (by omega) hall
    refine ⟨hpk.1, hpk.2.trans ?_⟩
    have hfl : ((chunksOf (max 2 M) tiled).map mkLeaf).flatMap
        Node.allItems = tiled := by
      rw [List.flatMap_map]
      have h2 : ((fun ch => (mkLeaf ch).allItems) :
          List Item → List Item) = fun ch => ch := by
        funext ch
        exact mkLeaf_allItems ch
      rw [h2, flatMap_self, chunksOf_flatten]
    rw [hfl]
    exact htp

/-- C9: `clear()` resets to the empty tree: `all()` and every search
come back empty, and the cleared tree is identical to a freshly
constructed tree with the same configuration, so every subsequent
operation behaves as on a fresh tree. -/
theorem clear_resets (t : Tree) (ht : 4 ≤ t.maxEntries) :
    t.clear.all = [] ∧ (∀ r, t.clear.search r = []) ∧
    (∀ r, t.clear.collides r = false) ∧ t.clear = Tree.new t.maxEntries := by
  refine ⟨rfl, fun r => ?_, fun r => ?_, ?_⟩
  · simp [Tree.search, Tree.clear, Node.searchN]
  · simp [Tree.collides, Tree.clear, Node.collidesN]
  · simp only [Tree.clear, Tree.new, Tree.mk.injEq]
    exact ⟨by omega, trivial⟩

/-! ## Removal and condensation (§4.6)

Modelled from the spec: locate the item by descending into children
whose rectangle contains the item's rectangle, comparing leaf entries by
payload identity; unlink it; condensing on the way back up, any node
left with fewer than `m` children is detached and its descendants
buffered for reinsertion at their original heights; finally an interior
root with a single child is dropped and the child promoted. -/

/-- A buffered descendant awaiting reinsertion: an item or a whole
subtree (§4.6 steps 3 and 4). -/
inductive Orphan where
  | item (it : Item)
  | tree (n : Node)

def Orphan.itemsO : Orphan → List Item
  | .item it => [it]
  | .tree n => n.allItems

mutual
/-- Modelled from the spec: locate, unlink and condense inside one
subtree (§4.6 steps 1 to 3).  Returns `none` when the item is not
found; otherwise the rebuilt subtree (`none` when this node became
under-filled and was detached) together with the buffered orphans. -/
def removeRec (m : ℕ) (x : Item) : Node → Option (Option Node × List Orphan)
  | .leaf _ its =>
      if x ∈ its then
        if (its.erase x).length < m then
          some (none, (its.erase x).map Orphan.item)
        else some (some (mkLeaf (its.erase x)), [])
      else none
  | .inner _ cs =>
      match removeTry m x cs with
      | none => none
      | some (i, res, orphs) =>
          match res with
          | some c2 => some (some (mkInner (cs.toList.set i c2)), orphs)
          | none =>
              if (cs.toList.eraseIdx i).length < m then
                some (none,
                  orphs ++ (cs.toList.eraseIdx i).map Orphan.tree)
              else some (some (mkInner (cs.toList.eraseIdx i)), orphs)
/-- Try the children in order, descending only into children whose
rectangle contains the item's rectangle (§4.6 step 1); returns the
index of the first child in which the removal succeeded. -/
def removeTry (m : ℕ) (x : Item) :
    NodeList → Option (ℕ × Option Node × List Orphan)
  | .nil => none
  | .cons c rest =>
      if containsB c.boxOf x.box then
        match removeRec m x c with
        | some r => some (0, r)
        | none =>
            match removeTry m x rest with
            | some (j, r) => some (j + 1, r)
            | none => none
      else
        match removeTry m x rest with
        | some (j, r) => some (j + 1, r)
        | none => none
end

/-- Modelled from the spec: reinsert one buffered orphan at the root,
height-aware (§4.6 step 4): an item goes back through the normal
insertion path; a subtree of height `h` is inserted as a child of a
node at height `h + 1` (when the tree is empty the subtree simply
becomes the root). -/
def reinsertOne (m M : ℕ) (base : Node) (o : Orphan) : Node :=
  match o with
  | .item it => insertEntryRoot m M base (.item it)
  | .tree c =>
      match base with
      | .leaf _ [] => c
      | _ =>
          if c.heightOf < base.heightOf then
            insertEntryRoot m M base (.node c)
          else if base.heightOf < c.heightOf then
            insertEntryRoot m M c (.node base)
          else mkInner [base, c]

def reinsertAll (m M : ℕ) (base : Node) (orphs : List Orphan) : Node :=
  orphs.foldl (reinsertOne m M) base

/-- Modelled from the spec: removal at the root (§4.6): the root itself
is never condensed away; after the removal an interior root left with a
single child is dropped and the child promoted (step 5), and the
buffered orphans are reinserted. -/
def removeRoot (m M : ℕ) (root : Node) (x : Item) : Node :=
  match root with
  | .leaf b its =>
      if x ∈ its then mkLeaf (its.erase x) else .leaf b its
  | .inner b cs =>
      match removeTry m x cs with
      | none => .inner b cs
      | some (i, res, orphs) =>
          let l2 := match res with
                    | some c2 => cs.toList.set i c2
                    | none => cs.toList.eraseIdx i
          let base := match l2 with
                      | [] => Node.leaf emptyBox []
                      | [c] => c
                      | _ => mkInner l2
          reinsertAll m M base orphs

/-- Modelled from the spec: `remove(item)` (§4.1, §4.6); a silent no-op
when no identity-equal item is stored. -/
def Tree.remove (t : Tree) (x : Item) : Tree :=
  ⟨t.maxEntries, removeRoot t.minEntries t.maxEntries t.root x⟩

theorem flatMap_orphan_items (its : List Item) :
    (its.map Orphan.item).flatMap Orphan.itemsO = its := by
  induction its with
  | nil => rfl
  | cons a l ih => simp [Orphan.itemsO, ih]

theorem flatMap_orphan_trees (l : List Node) :
    (l.map Orphan.tree).flatMap Orphan.itemsO = l.flatMap Node.allItems := by
  induction l with
  | nil => rfl
  | cons a l ih => simp [Orphan.itemsO, ih]

/-- The contract of a successful removal inside one subtree: the item
was stored there; buffered subtrees are well formed and sat strictly
below this node; the remaining contents are exactly the old contents
minus one copy of the item. -/
def RemOK (lb m M : ℕ) (x : Item) (n : Node) (res : Option Node)
    (orphs : List Orphan) : Prop :=
  x ∈ n.allItems ∧
  (∀ c, Orphan.tree c ∈ orphs →
    c.wfb lb M = true ∧ c.heightOf + 1 ≤ n.heightOf) ∧
  match res with
  | some n2 => n2.wfb lb M = true ∧ n2.heightOf = n.heightOf ∧
      (n2.allItems ++ orphs.flatMap Orphan.itemsO).Perm (n.allItems.erase x)
  | none => (orphs.flatMap Orphan.itemsO).Perm (n.allItems.erase x)

mutual
/-- Removal inside a well-formed subtree meets its contract. -/
theorem removeRec_sound {lb m M : ℕ} (hlb : lb ≤ m) (hm : 2 ≤ m)
    (x : Item) : ∀ n : Node, n.wfb lb M = true →
    ∀ res orphs, removeRec m x n = some (res, orphs) →
    RemOK lb m M x n res orphs
  | .leaf b its => by
      intro hwf res orphs hrem
      obtain ⟨hfill, hbx⟩ := wfb_leaf_iff.mp hwf
      rw [fillOK_iff] at hfill
      simp only [removeRec] at hrem
      by_cases hx : x ∈ its
      · rw [if_pos hx] at hrem
        by_cases hlen : (its.erase x).length < m
        · rw [if_pos hlen] at hrem
          injection hrem with hrem
          injection hrem with h1 h2
          subst h1
          subst h2
          refine ⟨hx, ?_, ?_⟩
          · intro c hc
            exfalso
            obtain ⟨a, -, heq⟩ := List.mem_map.mp hc
            simp at heq
          · simp only [allItems_leaf, flatMap_orphan_items]
            exact List.Perm.refl _
        · rw [if_neg hlen] at hrem
          injection hrem with hrem
          injection hrem with h1 h2
          subst h1
          subst h2
          refine ⟨hx, by simp, ?_, rfl, ?_⟩
          · exact wfb_mkLeaf (by omega) (by omega)
              (by rw [List.length_erase_of_mem hx]; omega)
          · simp only [allItems_leaf, mkLeaf_allItems, List.flatMap_nil,
              List.append_nil]
            exact List.Perm.refl _
      · rw [if_neg hx] at hrem
        exact absurd hrem (by simp)
  | .inner b cs => by
      intro hwf res orphs hrem
      obtain ⟨hfill, hbx, hunif, hwfl⟩ := wfb_inner_iff.mp hwf
      rw [fillOK_iff] at hfill
      simp only [removeRec] at hrem
      cases htry : removeTry m x cs with
      | none => rw [htry] at hrem; exact absurd hrem (by simp)
      | some t =>
          rw [htry] at hrem
          obtain ⟨i, res0, orphs0⟩ := t
          obtain ⟨hlt, hOK⟩ := removeTry_sound hlb hm x cs hwfl i res0
            orphs0 htry
          set ch := cs.toList.getD i default with hchdef
          have hchmem : ch ∈ cs.toList := getD_mem hlt
          have hchh : ch.heightOf = cs.heightMax :=
            uniformFor_mem hunif hchmem
          have hxin : x ∈ (Node.inner b cs).allItems := by
            rw [allItems_inner, allItemsL_eq]
            exact List.mem_flatMap.mpr ⟨ch, hchmem, hOK.1⟩
          have hitems : (Node.inner b cs).allItems =
              cs.toList.flatMap Node.allItems := by
            rw [allItems_inner, allItemsL_eq]
          have hlperm : cs.toList.flatMap Node.allItems ~
              ch.allItems ++ (cs.toList.eraseIdx i).flatMap Node.allItems :=
            by
            have h1 := (perm_getD_cons cs.toList i hlt).flatMap_right
              Node.allItems
            simp only [List.flatMap_cons] at h1
            rw [← hchdef] at h1
            exact h1
          have herase : ((Node.inner b cs).allItems).erase x ~
              ch.allItems.erase x ++
              (cs.toList.eraseIdx i).flatMap Node.allItems := by
            rw [hitems]
            refine (hlperm.erase x).trans ?_
            rw [List.erase_append_left _ hOK.1]
          cases res0 with
          | some c2 =>
              dsimp only at hrem
              injection hrem with hrem
              injection hrem with h1 h2
              subst h1
              subst h2
              obtain ⟨hw2, hh2, hp2⟩ := hOK.2.2
              have hmem : ∀ y ∈ cs.toList.set i c2,
                  y.wfb lb M = true ∧ y.heightOf = cs.heightMax := by
                intro y hy
                rcases List.mem_or_eq_of_mem_set hy with hy | rfl
                · exact ⟨wfbL_mem cs hwfl y hy, uniformFor_mem hunif hy⟩
                · exact ⟨hw2, by rw [hh2, hchh]⟩
              have hmk : (mkInner (cs.toList.set i c2)).wfb lb M = true ∧
                  (mkInner (cs.toList.set i c2)).heightOf =
                    cs.heightMax + 1 :=
                wfb_mkInner
                  (by rw [List.length_set]; exact hfill.1)
                  (by rw [List.length_set]; exact hfill.2.1)
                  (by rw [List.length_set]; exact hfill.2.2) hmem
              refine ⟨hxin, ?_, hmk.1,
                by rw [hmk.2, heightOf_inner]; omega, ?_⟩
              · intro c hc
                obtain ⟨hcw, hch⟩ := hOK.2.1 c hc
                refine ⟨hcw, ?_⟩
                rw [heightOf_inner]
                omega
              · rw [mkInner_allItems]
                refine ((((set_perm_cons _ i c2 hlt).flatMap_right
                  Node.allItems).append_right _).trans ?_).trans
                  herase.symm
                simp only [List.flatMap_cons]
                calc (c2.allItems ++
                    (cs.toList.eraseIdx i).flatMap Node.allItems) ++
                    orphs0.flatMap Orphan.itemsO
                    ~ (c2.allItems ++ orphs0.flatMap Orphan.itemsO) ++
                      (cs.toList.eraseIdx i).flatMap Node.allItems :=
                      perm_shuffle _ _ _
                  _ ~ ch.allItems.erase x ++
                      (cs.toList.eraseIdx i).flatMap Node.allItems :=
                      hp2.append_right _
          | none =>
              dsimp only at hrem
              have hp0 := hOK.2.2
              by_cases hlen : (cs.toList.eraseIdx i).length < m
              · rw [if_pos hlen] at hrem
                injection hrem with hrem
                injection hrem with h1 h2
                subst h1
                subst h2
                refine ⟨hxin, ?_, ?_⟩
                · intro c hc
                  rcases List.mem_append.mp hc with hc | hc
                  · obtain ⟨hcw, hch⟩ := hOK.2.1 c hc
                    refine ⟨hcw, ?_⟩
                    rw [heightOf_inner]
                    omega
                  · obtain ⟨y, hy, heq⟩ := List.mem_map.mp hc
                    have hy2 := List.mem_of_mem_eraseIdx hy
                    injection heq with heq
                    subst heq
                    refine ⟨wfbL_mem cs hwfl _ hy2, ?_⟩
                    rw [heightOf_inner, uniformFor_mem hunif hy2]
                    omega
                · simp only [List.flatMap_append, flatMap_orphan_trees]
                  exact ((hp0.append_right _).trans herase.symm).symm.symm
              · rw [if_neg hlen] at hrem
                injection hrem with hrem
                injection hrem with h1 h2
                subst h1
                subst h2
                have hne2 : cs.toList.eraseIdx i ≠ [] := by
                  intro hcon
                  rw [hcon] at hlen
                  simp at hlen
                  omega
                have hmem : ∀ y ∈ cs.toList.eraseIdx i,
                    y.wfb lb M = true ∧ y.heightOf = cs.heightMax := by
                  intro y hy
                  have hy2 := List.mem_of_mem_eraseIdx hy
                  exact ⟨wfbL_mem cs hwfl y hy2, uniformFor_mem hunif hy2⟩
                have hmk : (mkInner (cs.toList.eraseIdx i)).wfb lb M =
                    true ∧
                    (mkInner (cs.toList.eraseIdx i)).heightOf =
                      cs.heightMax + 1 :=
                  wfb_mkInner (by omega) (by
                      cases hl2 : cs.toList.eraseIdx i with
                      | nil => exact absurd hl2 hne2
                      | cons u us => simp)
                    (by
                      rw [List.length_eraseIdx_of_lt hlt]
                      omega) hmem
                refine ⟨hxin, ?_, hmk.1,
                  by rw [hmk.2, heightOf_inner]; omega, ?_⟩
                · intro c hc
                  obtain ⟨hcw, hch⟩ := hOK.2.1 c hc
                  refine ⟨hcw, ?_⟩
                  rw [heightOf_inner]
                  omega
                · rw [mkInner_allItems]
                  refine (List.perm_append_comm.trans ?_).trans herase.symm
                  exact hp0.append_right _
/-- The child scan returns a position inside the list and a successful
removal in the child at that position. -/
theorem removeTry_sound {lb m M : ℕ} (hlb : lb ≤ m) (hm : 2 ≤ m)
    (x : Item) : ∀ cs : NodeList, cs.wfbL lb M = true →
    ∀ i res orphs, removeTry m x cs = some (i, res, orphs) →
    ∃ h : i < cs.toList.length,
      RemOK lb m M x (cs.toList.getD i default) res orphs
  | .nil => by
      intro _ i res orphs h
      simp [removeTry] at h
  | .cons c rest => by
      intro hwfl i res orphs h
      simp only [NodeList.wfbL, Bool.and_eq_true] at hwfl
      simp only [removeTry] at h
      by_cases hcont : containsB c.boxOf x.box = true
      · rw [if_pos hcont] at h
        cases hrc : removeRec m x c with
        | some r =>
            rw [hrc] at h
            injection h with h
            injection h with h1 h2
            subst h1
            subst h2
            have : removeRec m x c = some (res, orphs) := by
              rw [hrc]
            refine ⟨by simp [NodeList.toList], ?_⟩
            have hgd : (NodeList.cons c rest).toList.getD 0 default = c :=
              rfl
            rw [hgd]
            exact removeRec_sound hlb hm x c hwfl.1 res orphs this
        | none =>
            rw [hrc] at h
            cases htr : removeTry m x rest with
            | some t =>
                rw [htr] at h
                obtain ⟨j, r⟩ := t
                injection h with h
                injection h with h1 h2
                subst h1
                subst h2
                obtain ⟨hj, hOK⟩ := removeTry_sound hlb hm x rest hwfl.2
                  j res orphs htr
                have hjlen : j + 1 < (NodeList.cons c rest).toList.length :=
                  by
                  simp only [NodeList.toList, List.length_cons]
                  omega
                refine ⟨hjlen, ?_⟩
                have hgd : (NodeList.cons c rest).toList.getD (j + 1)
                    default = rest.toList.getD j default := rfl
                rw [hgd]
                exact hOK
            | none =>
                rw [htr] at h
                exact absurd h (by simp)
      · rw [if_neg hcont] at h
        cases htr : removeTry m x rest with
        | some t =>
            rw [htr] at h
            obtain ⟨j, r⟩ := t
            injection h with h
            injection h with h1 h2
            subst h1
            subst h2
            obtain ⟨hj, hOK⟩ := removeTry_sound hlb hm x rest hwfl.2
              j res orphs htr
            have hjlen : j + 1 < (NodeList.cons c rest).toList.length := by
              simp only [NodeList.toList, List.length_cons]
              omega
            refine ⟨hjlen, ?_⟩
            have hgd : (NodeList.cons c rest).toList.getD (j + 1)
                default = rest.toList.getD j default := rfl
            rw [hgd]
            exact hOK
        | none =>
            rw [htr] at h
            exact absurd h (by simp)
end

mutual
/-- Removal finds any stored item under the invariants: the descent by
rectangle containment cannot miss it. -/
theorem removeRec_complete {lb m M : ℕ} (x : Item) : ∀ n : Node,
    n.wfb lb M = true → x ∈ n.allItems →
    (removeRec m x n).isSome = true
  | .leaf b its => by
      intro hwf hx
      simp only [allItems_leaf] at hx
      simp only [removeRec, if_pos hx]
      by_cases hlen : (its.erase x).length < m <;> simp [hlen]
  | .inner b cs => by
      intro hwf hx
      obtain ⟨hfill, hbx, hunif, hwfl⟩ := wfb_inner_iff.mp hwf
      simp only [allItems_inner] at hx
      obtain ⟨c, hc, hcx⟩ := allItemsL_mem cs x hx
      have hcont : containsB c.boxOf x.box = true :=
        allItems_contained c (wfbL_mem cs hwfl c hc) x hcx
      have htry := @removeTry_complete lb m M x cs hwfl ⟨c, hc, hcont, hcx⟩
      simp only [removeRec]
      cases htr : removeTry m x cs with
      | none => rw [htr] at htry; simp at htry
      | some t =>
          obtain ⟨i, res, orphs⟩ := t
          cases res with
          | some c2 => simp
          | none =>
              by_cases hlen : (cs.toList.eraseIdx i).length < m <;>
                simp [hlen]
theorem removeTry_complete {lb m M : ℕ} (x : Item) : ∀ cs : NodeList,
    cs.wfbL lb M = true →
    (∃ c ∈ cs.toList, containsB c.boxOf x.box = true ∧ x ∈ c.allItems) →
    (removeTry m x cs).isSome = true
  | .nil => by
      intro _ hex
      obtain ⟨c, hc, -⟩ := hex
      simp [NodeList.toList] at hc
  | .cons c rest => by
      intro hwfl hex
      simp only [NodeList.wfbL, Bool.and_eq_true] at hwfl
      simp only [removeTry]
      by_cases hcont : containsB c.boxOf x.box = true
      · rw [if_pos hcont]
        cases hrc : removeRec m x c with
        | some r => simp
        | none =>
            have hex2 : ∃ d ∈ rest.toList,
                containsB d.boxOf x.box = true ∧ x ∈ d.allItems := by
              obtain ⟨d, hd, hdc, hdx⟩ := hex
              simp only [NodeList.toList, List.mem_cons] at hd
              rcases hd with rfl | hd
              · exfalso
                have := @removeRec_complete lb m M x d hwfl.1 hdx
                rw [hrc] at this
                simp at this
              · exact ⟨d, hd, hdc, hdx⟩
            have := @removeTry_complete lb m M x rest hwfl.2 hex2
            cases htr : removeTry m x rest with
            | none => rw [htr] at this; simp at this
            | some t => simp
      · rw [if_neg hcont]
        have hex2 : ∃ d ∈ rest.toList,
            containsB d.boxOf x.box = true ∧ x ∈ d.allItems := by
          obtain ⟨d, hd, hdc, hdx⟩ := hex
          simp only [NodeList.toList, List.mem_cons] at hd
          rcases hd with rfl | hd
          · exact absurd hdc hcont
          · exact ⟨d, hd, hdc, hdx⟩
        have := @removeTry_complete lb m M x rest hwfl.2 hex2
        cases htr : removeTry m x rest with
        | none => rw [htr] at this; simp at this
        | some t => simp
end

mutual
/-- A well-formed subtree with the fill bound at least one stores at
least one item. -/
theorem wfb_one_allItems_ne {M : ℕ} : ∀ n : Node,
    n.wfb 1 M = true → n.allItems ≠ []
  | .leaf b its => by
      intro hwf
      obtain ⟨hfill, -⟩ := wfb_leaf_iff.mp hwf
      rw [fillOK_iff] at hfill
      simp only [allItems_leaf]
      intro hcon
      rw [hcon] at hfill
      simp at hfill
  | .inner b cs => by
      intro hwf
      obtain ⟨hfill, -, -, hwfl⟩ := wfb_inner_iff.mp hwf
      rw [fillOK_iff] at hfill
      cases cs with
      | nil => simp [NodeList.toList] at hfill
      | cons c rest =>
          simp only [allItems_inner]
          exact wfbL_one_allItems_ne c rest hwfl
theorem wfbL_one_allItems_ne {M : ℕ} : ∀ (c : Node) (rest : NodeList),
    (NodeList.cons c rest).wfbL 1 M = true →
    (NodeList.cons c rest).allItemsL ≠ []
  | c, rest => by
      intro hwfl
      simp only [NodeList.wfbL, Bool.and_eq_true] at hwfl
      simp only [NodeList.allItemsL]
      intro hcon
      rcases List.append_eq_nil.mp hcon with ⟨h1, -⟩
      exact wfb_one_allItems_ne c hwfl.1 h1
end

/-- With lower fill bound one, a non-empty root satisfies the plain
node invariants. -/
theorem wfRootb_one_to_wfb {M : ℕ} {n : Node}
    (h : n.wfRootb 1 M = true) (hne : n.allItems ≠ []) :
    n.wfb 1 M = true := by
  cases n with
  | leaf b its =>
      obtain ⟨hM0, hbx⟩ := wfRootb_leaf_iff.mp h
      rw [wfb_leaf_iff, fillOK_iff]
      simp only [allItems_leaf] at hne
      refine ⟨⟨?_, ?_, hM0⟩, hbx⟩ <;>
        · cases its with
          | nil => exact absurd rfl hne
          | cons a l => simp
  | inner b cs =>
      obtain ⟨hfill, hbx, hunif, hwfl⟩ := wfRootb_inner_iff.mp h
      rw [fillOK_iff] at hfill
      rw [wfb_inner_iff, fillOK_iff]
      exact ⟨⟨by omega, hfill.2.1, hfill.2.2⟩, hbx, hunif, hwfl⟩

mutual
/-- The invariants are antitone in the lower fill bound. -/
theorem wfb_mono {lb lb2 M : ℕ} (hle : lb2 ≤ lb) : ∀ n : Node,
    n.wfb lb M = true → n.wfb lb2 M = true
  | .leaf b its => by
      intro h
      obtain ⟨hf, hb⟩ := wfb_leaf_iff.mp h
      rw [fillOK_iff] at hf
      exact wfb_leaf_iff.mpr
        ⟨fillOK_iff.mpr ⟨by omega, hf.2.1, hf.2.2⟩, hb⟩
  | .inner b cs => by
      intro h
      obtain ⟨hf, hb, hu, hl⟩ := wfb_inner_iff.mp h
      rw [fillOK_iff] at hf
      exact wfb_inner_iff.mpr
        ⟨fillOK_iff.mpr ⟨by omega, hf.2.1, hf.2.2⟩, hb, hu,
          wfbL_mono hle cs hl⟩
theorem wfbL_mono {lb lb2 M : ℕ} (hle : lb2 ≤ lb) : ∀ cs : NodeList,
    cs.wfbL lb M = true → cs.wfbL lb2 M = true
  | .nil => by intro _; rfl
  | .cons c rest => by
      intro h
      simp only [NodeList.wfbL, Bool.and_eq_true] at h ⊢
      exact ⟨wfb_mono hle c h.1, wfbL_mono hle rest h.2⟩
end

/-- The root invariants are antitone in the lower fill bound. -/
theorem wfRootb_mono {lb lb2 M : ℕ} (hle : lb2 ≤ lb) {n : Node}
    (h : n.wfRootb lb M = true) : n.wfRootb lb2 M = true := by
  cases n with
  | leaf b its => exact h
  | inner b cs =>
      obtain ⟨hf, hb, hu, hl⟩ := wfRootb_inner_iff.mp h
      rw [fillOK_iff] at hf
      exact wfRootb_inner_iff.mpr
        ⟨fillOK_iff.mpr ⟨by omega, hf.2.1, hf.2.2⟩, hb, hu,
          wfbL_mono hle cs hl⟩

/-- Reinserting one orphan at the root preserves the root invariants,
adds exactly the orphan's items, and never lowers the height. -/
theorem reinsertOne_wf {lb m M : ℕ} (hlb1 : 1 ≤ lb) (hlb : lb ≤ m)
    (hm : 2 ≤ m) (hM : 2 * m ≤ M + 1) (base : Node) (o : Orphan)
    (hb : base.wfRootb lb M = true)
    (ho : ∀ c, o = .tree c → c.wfb lb M = true ∧
      (c.heightOf < base.heightOf ∨ lb = 1)) :
    (reinsertOne m M base o).wfRootb lb M = true ∧
    (reinsertOne m M base o).allItems.Perm (base.allItems ++ o.itemsO) ∧
    base.heightOf ≤ (reinsertOne m M base o).heightOf := by
  cases o with
  | item it =>
      obtain ⟨h1, h2, h3⟩ := insertEntryRoot_wf hlb hm hM base (.item it)
        hb (fun c hc => absurd hc (by simp))
      exact ⟨h1, h2, h3⟩
  | tree c =>
      obtain ⟨hcw, hcase⟩ := ho c rfl
      have hbase_wfb : base.allItems ≠ [] → lb = 1 →
          base.wfb lb M = true := by
        intro hne h1
        subst h1
        exact wfRootb_one_to_wfb hb hne
      have main : ∀ hne : base.allItems ≠ [],
          (if c.heightOf < base.heightOf then
            insertEntryRoot m M base (.node c)
          else if base.heightOf < c.heightOf then
            insertEntryRoot m M c (.node base)
          else mkInner [base, c]).wfRootb lb M = true ∧
          (if c.heightOf < base.heightOf then
            insertEntryRoot m M base (.node c)
          else if base.heightOf < c.heightOf then
            insertEntryRoot m M c (.node base)
          else mkInner [base, c]).allItems.Perm
            (base.allItems ++ c.allItems) ∧
          base.heightOf ≤ (if c.heightOf < base.heightOf then
            insertEntryRoot m M base (.node c)
          else if base.heightOf < c.heightOf then
            insertEntryRoot m M c (.node base)
          else mkInner [base, c]).heightOf := by
        intro hne
        by_cases hlt : c.heightOf < base.heightOf
        · rw [if_pos hlt]
          obtain ⟨h1, h2, h3⟩ := insertEntryRoot_wf hlb hm hM base
            (.node c) hb
            (fun d hd => by
              injection hd with hd
              subst hd
              exact ⟨hcw, by omega⟩)
          exact ⟨h1, h2, h3⟩
        · rw [if_neg hlt]
          have h1eq : lb = 1 := by
            rcases hcase with h | h
            · exact absurd h hlt
            · exact h
          have hbw : base.wfb lb M = true := hbase_wfb hne h1eq
          by_cases hgt : base.heightOf < c.heightOf
          · rw [if_pos hgt]
            obtain ⟨h1, h2, h3⟩ := insertEntryRoot_wf hlb hm hM c
              (.node base) (wfb_imp_wfRootb hcw)
              (fun d hd => by
                injection hd with hd
                subst hd
                exact ⟨hbw, by omega⟩)
            refine ⟨h1, ?_, by omega⟩
            refine h2.trans ?_
            exact List.perm_append_comm
          · rw [if_neg hgt]
            have heq : c.heightOf = base.heightOf := by omega
            have hmk : (mkInner [base, c]).wfRootb lb M = true ∧
                (mkInner [base, c]).heightOf = base.heightOf + 1 :=
              wfRootb_mkInner (by simp) (by simp) (by simp; omega)
                (by
                  intro y hy
                  rcases List.mem_cons.mp hy with rfl | hy
                  · exact ⟨hbw, rfl⟩
                  · rw [List.mem_singleton.mp hy]
                    exact ⟨hcw, heq⟩)
            refine ⟨hmk.1, ?_, by omega⟩
            rw [mkInner_allItems]
            simp
      cases base with
      | leaf bb its =>
          cases its with
          | nil =>
              refine ⟨wfb_imp_wfRootb hcw, ?_, heightOf_pos c⟩
              simp [reinsertOne, allItems_leaf, Orphan.itemsO]
          | cons a l =>
              have hne : (Node.leaf bb (a :: l)).allItems ≠ [] := by
                simp [allItems_leaf]
              exact main hne
      | inner bb cs =>
          have hne : (Node.inner bb cs).allItems ≠ [] := by
            obtain ⟨hfill, -, -, hwfl⟩ := wfRootb_inner_iff.mp hb
            rw [fillOK_iff] at hfill
            cases cs with
            | nil => simp [NodeList.toList] at hfill
            | cons d rest =>
                simp only [allItems_inner]
                exact wfbL_one_allItems_ne d rest (wfbL_mono hlb1 _ hwfl)
          exact main hne

/-- Reinserting all buffered orphans preserves the root invariants and
restores exactly the buffered items. -/
theorem reinsertAll_wf {lb m M : ℕ} (hlb1 : 1 ≤ lb) (hlb : lb ≤ m)
    (hm : 2 ≤ m) (hM : 2 * m ≤ M + 1) : ∀ (orphs : List Orphan)
    (base : Node), base.wfRootb lb M = true →
    (∀ c, Orphan.tree c ∈ orphs → c.wfb lb M = true ∧
      (c.heightOf < base.heightOf ∨ lb = 1)) →
    (reinsertAll m M base orphs).wfRootb lb M = true ∧
    (reinsertAll m M base orphs).allItems.Perm
      (base.allItems ++ orphs.flatMap Orphan.itemsO) ∧
    base.heightOf ≤ (reinsertAll m M base orphs).heightOf := by
  intro orphs
  induction orphs with
  | nil =>
      intro base hb _
      exact ⟨hb, by simp [reinsertAll], le_refl _⟩
  | cons o rest ih =>
      intro base hb ho
      have hstep := reinsertOne_wf hlb1 hlb hm hM base o hb
        (fun c hc => ho c (by rw [← hc]; exact List.mem_cons_self o rest))
      have hrest := ih (reinsertOne m M base o) hstep.1
        (fun c hc => by
          obtain ⟨h1, h2⟩ := ho c (List.mem_cons_of_mem o hc)
          refine ⟨h1, ?_⟩
          rcases h2 with h2 | h2
          · exact Or.inl (lt_of_lt_of_le h2 hstep.2.2)
          · exact Or.inr h2)
      have heq : reinsertAll m M base (o :: rest) =
          reinsertAll m M (reinsertOne m M base o) rest := rfl
      rw [heq]
      refine ⟨hrest.1, ?_, le_trans hstep.2.2 hrest.2.2⟩
      refine hrest.2.1.trans ?_
      refine (hstep.2.1.append_right _).trans ?_
      rw [List.append_assoc, List.flatMap_cons]

/-- Removal at the root: a silent no-op when the item is absent, and
otherwise an invariant-preserving removal of exactly one copy. -/
theorem removeRoot_wf {lb m M : ℕ} (hlb1 : 1 ≤ lb) (hlb : lb ≤ m)
    (hm : 2 ≤ m) (hM : 2 * m ≤ M + 1) (root : Node) (x : Item)
    (hr : root.wfRootb lb M = true) :
    (x ∉ root.allItems → removeRoot m M root x = root) ∧
    (x ∈ root.allItems → (removeRoot m M root x).wfRootb lb M = true ∧
      (removeRoot m M root x).allItems.Perm (root.allItems.erase x)) := by
  cases root with
  | leaf b its =>
      obtain ⟨hM0, hbx⟩ := wfRootb_leaf_iff.mp hr
      constructor
      · intro hnot
        simp only [allItems_leaf] at hnot
        simp only [removeRoot, if_neg hnot]
      · intro hxin
        simp only [allItems_leaf] at hxin
        simp only [removeRoot, if_pos hxin]
        refine ⟨wfRootb_mkLeaf ?_, ?_⟩
        · exact le_trans (List.length_erase_le x its) hM0
        · simp only [mkLeaf_allItems, allItems_leaf]
          exact List.Perm.refl _
  | inner b cs =>
      obtain ⟨hfill, hbx, hunif, hwfl⟩ := wfRootb_inner_iff.mp hr
      rw [fillOK_iff] at hfill
      constructor
      · intro hnot
        cases htry : removeTry m x cs with
        | none => simp only [removeRoot, htry]
        | some t =>
            exfalso
            obtain ⟨i, res, orphs⟩ := t
            obtain ⟨hlt, hOK⟩ := removeTry_sound hlb hm x cs hwfl i res
              orphs htry
            exact hnot (by
              rw [allItems_inner, allItemsL_eq]
              exact List.mem_flatMap.mpr ⟨_, getD_mem hlt, hOK.1⟩)
      · intro hxin
        have hsome : (removeTry m x cs).isSome = true := by
          simp only [allItems_inner] at hxin
          obtain ⟨c, hc, hcx⟩ := allItemsL_mem cs x hxin
          exact @removeTry_complete lb m M x cs hwfl
            ⟨c, hc, allItems_contained c (wfbL_mem cs hwfl c hc) x hcx, hcx⟩
        cases htry : removeTry m x cs with
        | none => rw [htry] at hsome; simp at hsome
        | some t =>
            obtain ⟨i, res, orphs⟩ := t
            obtain ⟨hlt, hOK⟩ := removeTry_sound hlb hm x cs hwfl i res
              orphs htry
            set ch := cs.toList.getD i default with hchdef
            have hchmem : ch ∈ cs.toList := getD_mem hlt
            have hchh : ch.heightOf = cs.heightMax :=
              uniformFor_mem hunif hchmem
            have hitems : (Node.inner b cs).allItems =
                cs.toList.flatMap Node.allItems := by
              rw [allItems_inner, allItemsL_eq]
            have hlperm : cs.toList.flatMap Node.allItems ~
                ch.allItems ++
                (cs.toList.eraseIdx i).flatMap Node.allItems := by
              have h1 := (perm_getD_cons cs.toList i hlt).flatMap_right
                Node.allItems
              simp only [List.flatMap_cons] at h1
              rw [← hchdef] at h1
              exact h1
            have herase : ((Node.inner b cs).allItems).erase x ~
                ch.allItems.erase x ++
                (cs.toList.eraseIdx i).flatMap Node.allItems := by
              rw [hitems]
              refine (hlperm.erase x).trans ?_
              rw [List.erase_append_left _ hOK.1]
            simp only [removeRoot, htry]
            cases res with
            | some c2 =>
                dsimp only
                obtain ⟨hw2, hh2, hp2⟩ := hOK.2.2
                have hsp := (set_perm_cons cs.toList i c2
                  hlt).flatMap_right Node.allItems
                simp only [List.flatMap_cons] at hsp
                have hl2mem : ∀ y ∈ cs.toList.set i c2,
                    y.wfb lb M = true ∧ y.heightOf = cs.heightMax := by
                  intro y hy
                  rcases List.mem_or_eq_of_mem_set hy with hy | rfl
                  · exact ⟨wfbL_mem cs hwfl y hy,
                      uniformFor_mem hunif hy⟩
                  · exact ⟨hw2, by rw [hh2, hchh]⟩
                have hitemsgoal : ((cs.toList.set i c2).flatMap
                    Node.allItems ++ orphs.flatMap Orphan.itemsO).Perm
                    (((Node.inner b cs).allItems).erase x) := by
                  refine ((hsp.append_right _).trans ?_).trans herase.symm
                  calc (c2.allItems ++
                      (cs.toList.eraseIdx i).flatMap Node.allItems) ++
                      orphs.flatMap Orphan.itemsO
                      ~ (c2.allItems ++ orphs.flatMap Orphan.itemsO) ++
                        (cs.toList.eraseIdx i).flatMap Node.allItems :=
                        perm_shuffle _ _ _
                    _ ~ ch.allItems.erase x ++
                        (cs.toList.eraseIdx i).flatMap Node.allItems :=
                        hp2.append_right _
                have horph : ∀ c, Orphan.tree c ∈ orphs →
                    c.wfb lb M = true ∧ c.heightOf + 1 ≤ cs.heightMax := by
                  intro c hc
                  obtain ⟨h1, h2⟩ := hOK.2.1 c hc
                  exact ⟨h1, by omega⟩
                cases hl2 : cs.toList.set i c2 with
                | nil =>
                    exfalso
                    have := congrArg List.length hl2
                    rw [List.length_set] at this
                    simp only [List.length_nil] at this
                    omega
                | cons y ys =>
                    cases ys with
                    | nil =>
                        dsimp only
                        have hy : y.wfb lb M = true ∧
                            y.heightOf = cs.heightMax :=
                          hl2mem y (by rw [hl2]; simp)
                        have hfin := reinsertAll_wf hlb1 hlb hm hM orphs y
                          (wfb_imp_wfRootb hy.1)
                          (fun c hc => ⟨(horph c hc).1,
                            Or.inl (by have := (horph c hc).2; omega)⟩)
                        refine ⟨hfin.1, ?_⟩
                        refine hfin.2.1.trans ?_
                        have hyi : y.allItems =
                            (cs.toList.set i c2).flatMap Node.allItems := by
                          rw [hl2]
                          simp
                        rw [hyi]
                        exact hitemsgoal
                    | cons z zs =>
                        dsimp only
                        rw [← hl2]
                        have hmk : (mkInner (cs.toList.set i c2)).wfRootb
                            lb M = true ∧
                            (mkInner (cs.toList.set i c2)).heightOf =
                              cs.heightMax + 1 :=
                          wfRootb_mkInner
                            (by rw [List.length_set]; omega)
                            (by rw [List.length_set]; omega)
                            (by rw [List.length_set]; omega) hl2mem
                        have hfin := reinsertAll_wf hlb1 hlb hm hM orphs
                          (mkInner (cs.toList.set i c2)) hmk.1
                          (fun c hc => ⟨(horph c hc).1,
                            Or.inl (by have := (horph c hc).2; omega)⟩)
                        refine ⟨hfin.1, ?_⟩
                        refine hfin.2.1.trans ?_
                        rw [mkInner_allItems]
                        exact hitemsgoal
            | none =>
                dsimp only
                have hp0 : (orphs.flatMap Orphan.itemsO).Perm
                    (ch.allItems.erase x) := hOK.2.2
                have horph : ∀ c, Orphan.tree c ∈ orphs →
                    c.wfb lb M = true ∧ c.heightOf + 1 ≤ cs.heightMax := by
                  intro c hc
                  obtain ⟨h1, h2⟩ := hOK.2.1 c hc
                  exact ⟨h1, by omega⟩
                have hl2mem : ∀ y ∈ cs.toList.eraseIdx i,
                    y.wfb lb M = true ∧ y.heightOf = cs.heightMax := by
                  intro y hy
                  have hy2 := List.mem_of_mem_eraseIdx hy
                  exact ⟨wfbL_mem cs hwfl y hy2, uniformFor_mem hunif hy2⟩
                have hitemsgoal : ((cs.toList.eraseIdx i).flatMap
                    Node.allItems ++ orphs.flatMap Orphan.itemsO).Perm
                    (((Node.inner b cs).allItems).erase x) := by
                  refine (List.perm_append_comm.trans ?_).trans herase.symm
                  exact hp0.append_right _
                cases hl2 : cs.toList.eraseIdx i with
                | nil =>
                    dsimp only
                    have hlen1 : cs.toList.length = 1 := by
                      have := congrArg List.length hl2
                      rw [List.length_eraseIdx_of_lt hlt] at this
                      simp only [List.length_nil] at this
                      omega
                    have hlb_eq : lb = 1 := by omega
                    have hfin := reinsertAll_wf hlb1 hlb hm hM orphs
                      (Node.leaf emptyBox []) (wfRootb_emptyLeaf lb M)
                      (fun c hc => ⟨(horph c hc).1, Or.inr hlb_eq⟩)
                    refine ⟨hfin.1, ?_⟩
                    refine hfin.2.1.trans ?_
                    have h0 : (Node.leaf emptyBox []).allItems =
                        ([] : List Item) := rfl
                    rw [h0, List.nil_append]
                    have := hitemsgoal
                    rw [hl2] at this
                    simpa using this
                | cons y ys =>
                    cases ys with
                    | nil =>
                        dsimp only
                        have hy : y.wfb lb M = true ∧
                            y.heightOf = cs.heightMax :=
                          hl2mem y (by rw [hl2]; simp)
                        have hfin := reinsertAll_wf hlb1 hlb hm hM orphs y
                          (wfb_imp_wfRootb hy.1)
                          (fun c hc => ⟨(horph c hc).1,
                            Or.inl (by have := (horph c hc).2; omega)⟩)
                        refine ⟨hfin.1, ?_⟩
                        refine hfin.2.1.trans ?_
                        have hyi : y.allItems =
                            (cs.toList.eraseIdx i).flatMap
                              Node.allItems := by
                          rw [hl2]
                          simp
                        rw [hyi]
                        exact hitemsgoal
                    | cons z zs =>
                        dsimp only
                        rw [← hl2]
                        have hlen2 : 2 ≤ (cs.toList.eraseIdx i).length := by
                          rw [hl2]
                          simp only [List.length_cons]
                          omega
                        have hmk : (mkInner
                            (cs.toList.eraseIdx i)).wfRootb lb M = true ∧
                            (mkInner (cs.toList.eraseIdx i)).heightOf =
                              cs.heightMax + 1 :=
                          wfRootb_mkInner (by omega) (by omega)
                            (by
                              rw [List.length_eraseIdx_of_lt hlt]
                              omega) hl2mem
                        have hfin := reinsertAll_wf hlb1 hlb hm hM orphs
                          (mkInner (cs.toList.eraseIdx i)) hmk.1
                          (fun c hc => ⟨(horph c hc).1,
                            Or.inl (by have := (horph c hc).2; omega)⟩)
                        refine ⟨hfin.1, ?_⟩
                        refine hfin.2.1.trans ?_
                        rw [mkInner_allItems]
                        exact hitemsgoal

mutual
/-- A successful removal implies the item was stored (no invariant
needed). -/
theorem removeRec_found_mem {m : ℕ} (x : Item) : ∀ (n : Node)
    (r : Option Node × List Orphan), removeRec m x n = some r →
    x ∈ n.allItems
  | .leaf b its, r => by
      intro h
      simp only [removeRec] at h
      by_cases hx : x ∈ its
      · simpa [allItems_leaf] using hx
      · rw [if_neg hx] at h
        exact absurd h (by simp)
  | .inner b cs, r => by
      intro h
      simp only [removeRec] at h
      cases htry : removeTry m x cs with
      | none => rw [htry] at h; exact absurd h (by simp)
      | some t =>
          simp only [allItems_inner]
          exact removeTry_found_mem x cs t htry
theorem removeTry_found_mem {m : ℕ} (x : Item) : ∀ (cs : NodeList)
    (t : ℕ × Option Node × List Orphan), removeTry m x cs = some t →
    x ∈ cs.allItemsL
  | .nil, t => by intro h; simp [removeTry] at h
  | .cons c rest, t => by
      intro h
      simp only [removeTry] at h
      simp only [NodeList.allItemsL, List.mem_append]
      by_cases hcont : containsB c.boxOf x.box = true
      · rw [if_pos hcont] at h
        cases hrc : removeRec m x c with
        | some r => exact Or.inl (removeRec_found_mem x c r hrc)
        | none =>
            rw [hrc] at h
            cases htr : removeTry m x rest with
            | some t2 =>
                exact Or.inr (removeTry_found_mem x rest t2 htr)
            | none => rw [htr] at h; exact absurd h (by simp)
      · rw [if_neg hcont] at h
        cases htr : removeTry m x rest with
        | some t2 => exact Or.inr (removeTry_found_mem x rest t2 htr)
        | none => rw [htr] at h; exact absurd h (by simp)
end

/-- C7: removing an item that is not stored (by identity) is a silent
no-op: the tree is unchanged, so in particular `all()` and its length
are unchanged. -/
theorem remove_miss_noop (t : Tree) (x : Item) (h : x ∉ t.all) :
    t.remove x = t ∧ (t.remove x).all = t.all ∧
    (t.remove x).all.length = t.all.length := by
  have hroot : removeRoot t.minEntries t.maxEntries t.root x = t.root := by
    cases hr : t.root with
    | leaf b its =>
        have hx : x ∉ its := by
          intro hx
          exact h (by
            show x ∈ t.root.allItems
            rw [hr, allItems_leaf]
            exact hx)
        simp only [removeRoot, if_neg hx]
    | inner b cs =>
        cases htry : removeTry t.minEntries x cs with
        | none => simp only [removeRoot, htry]
        | some tt =>
            exfalso
            exact h (by
              show x ∈ t.root.allItems
              rw [hr, allItems_inner]
              exact removeTry_found_mem x cs tt htry)
  have heq : t.remove x = t := by
    show (⟨t.maxEntries, removeRoot t.minEntries t.maxEntries t.root x⟩ :
      Tree) = t
    rw [hroot]
  exact ⟨heq, by rw [heq], by rw [heq]⟩

/-- Witness for C7: removing a never-inserted item from a concrete
one-item tree. -/
theorem remove_miss_noop_witness :
    ((⟨⟨2, 2, 3, 3⟩, 7⟩ : Item) ∉
      (Tree.mk 9 (Node.leaf ⟨0, 0, 1, 1⟩ [⟨⟨0, 0, 1, 1⟩, 0⟩])).all) ∧
    ((Tree.mk 9 (Node.leaf ⟨0, 0, 1, 1⟩
        [⟨⟨0, 0, 1, 1⟩, 0⟩])).remove ⟨⟨2, 2, 3, 3⟩, 7⟩ =
      Tree.mk 9 (Node.leaf ⟨0, 0, 1, 1⟩ [⟨⟨0, 0, 1, 1⟩, 0⟩]) ∧
      ((Tree.mk 9 (Node.leaf ⟨0, 0, 1, 1⟩
        [⟨⟨0, 0, 1, 1⟩, 0⟩])).remove ⟨⟨2, 2, 3, 3⟩, 7⟩).all =
        (Tree.mk 9 (Node.leaf ⟨0, 0, 1, 1⟩ [⟨⟨0, 0, 1, 1⟩, 0⟩])).all ∧
      ((Tree.mk 9 (Node.leaf ⟨0, 0, 1, 1⟩
        [⟨⟨0, 0, 1, 1⟩, 0⟩])).remove ⟨⟨2, 2, 3, 3⟩, 7⟩).all.length =
        (Tree.mk 9 (Node.leaf ⟨0, 0, 1, 1⟩
          [⟨⟨0, 0, 1, 1⟩, 0⟩])).all.length) :=
  ⟨by decide, remove_miss_noop _ _ (by decide)⟩

/-- Witness for C9 at a concrete one-item tree. -/
theorem clear_resets_witness :
    (4 ≤ (Tree.mk 9 (Node.leaf ⟨0, 0, 1, 1⟩ [⟨⟨0, 0, 1, 1⟩, 0⟩])).maxEntries) ∧
    ((Tree.mk 9 (Node.leaf ⟨0, 0, 1, 1⟩ [⟨⟨0, 0, 1, 1⟩, 0⟩])).clear.all = [] ∧
      (∀ r, (Tree.mk 9 (Node.leaf ⟨0, 0, 1, 1⟩
        [⟨⟨0, 0, 1, 1⟩, 0⟩])).clear.search r = []) ∧
      (∀ r, (Tree.mk 9 (Node.leaf ⟨0, 0, 1, 1⟩
        [⟨⟨0, 0, 1, 1⟩, 0⟩])).clear.collides r = false) ∧
      (Tree.mk 9 (Node.leaf ⟨0, 0, 1, 1⟩ [⟨⟨0, 0, 1, 1⟩, 0⟩])).clear =
        Tree.new (Tree.mk 9 (Node.leaf ⟨0, 0, 1, 1⟩
          [⟨⟨0, 0, 1, 1⟩, 0⟩])).maxEntries) :=
  ⟨by decide, clear_resets _ (by decide)⟩

/-- `minEntries = max 2 ⌈0.4 maxEntries⌉` is at least 2 and small enough
that a split into two halves of at least `minEntries` fits in `maxEntries`
(§3 of the spec). -/
theorem minEntries_bounds (t : Tree) (h4 : 4 ≤ t.maxEntries) :
    2 ≤ t.minEntries ∧ 2 * t.minEntries ≤ t.maxEntries + 1 := by
  unfold Tree.minEntries
  omega

/-- Tree-level insertion: the invariant at level `lb` is preserved, the
stored multiset gains exactly the new item, `maxEntries` is unchanged. -/
theorem insert_tree_wf {lb : ℕ} (t : Tree) (it : Item)
    (hlb : lb ≤ t.minEntries) (h4 : 4 ≤ t.maxEntries)
    (h : t.wfFor lb = true) :
    (t.insert it).wfFor lb = true ∧
    (t.insert it).all.Perm (t.all ++ [it]) ∧
    (t.insert it).maxEntries = t.maxEntries := by
  obtain ⟨hm2, hM⟩ := minEntries_bounds t h4
  have hmain := insertEntryRoot_wf hlb hm2 hM t.root (Entry.item it) h
    (fun c hc => nomatch hc)
  exact ⟨hmain.1, hmain.2.1, rfl⟩

/-- Tree-level removal: a miss is the identity; a hit preserves the
invariant at level `lb` and erases exactly one copy of the item;
`maxEntries` is unchanged. -/
theorem remove_tree_wf {lb : ℕ} (t : Tree) (x : Item) (hlb1 : 1 ≤ lb)
    (hlb : lb ≤ t.minEntries) (h4 : 4 ≤ t.maxEntries)
    (h : t.wfFor lb = true) :
    (x ∉ t.all → t.remove x = t) ∧
    (x ∈ t.all → (t.remove x).wfFor lb = true ∧
      (t.remove x).all.Perm (t.all.erase x)) ∧
    (t.remove x).maxEntries = t.maxEntries := by
  obtain ⟨hm2, hM⟩ := minEntries_bounds t h4
  have hmain := removeRoot_wf hlb1 hlb hm2 hM t.root x h
  refine ⟨?_, hmain.2, rfl⟩
  intro hx
  show (⟨t.maxEntries, removeRoot t.minEntries t.maxEntries t.root x⟩ :
    Tree) = t
  rw [hmain.1 hx]

def demoBox : BBox := ⟨0, 0, 1, 1⟩

def c2a : Item := ⟨demoBox, 0⟩

def c2b : Item := ⟨demoBox, 1⟩

def c2tree : Tree := Tree.mk 9 (Node.leaf demoBox [c2a, c2b])

/-- C2: `remove(item)` matches by payload identity, not by coordinates:
if the tree stores two distinct items `a` and `b` with identical bounding
rectangles (and no other item with those coordinates, `a` stored once),
removing `a` leaves a tree in which `a` is gone, `b` is still stored, and
the only stored item with those coordinates is `b`. -/
theorem remove_by_identity (t : Tree) (a b : Item) (h4 : 4 ≤ t.maxEntries)
    (hw : t.wfFor 1 = true) (hbox : b.box = a.box) (hab : b ≠ a)
    (hcount : t.all.count a = 1) (hb : b ∈ t.all)
    (honly : ∀ it ∈ t.all, it.box = a.box → it = a ∨ it = b) :
    a ∉ (t.remove a).all ∧ b ∈ (t.remove a).all ∧
    ∀ it ∈ (t.remove a).all, it.box = a.box → it = b := by
  obtain ⟨hm2, hM⟩ := minEntries_bounds t h4
  have ha : a ∈ t.all := by
    by_contra hna
    rw [List.count_eq_zero_of_not_mem hna] at hcount
    exact absurd hcount (by decide)
  have hmain := remove_tree_wf t a (le_refl 1) (by omega) h4 hw
  obtain ⟨hwf2, hperm⟩ := hmain.2.1 ha
  have hanot : a ∉ (t.remove a).all := by
    rw [hperm.mem_iff]
    intro hmem
    have hcnt0 : (t.all.erase a).count a = 0 := by
      rw [List.count_erase_self, hcount]
    exact (List.count_eq_zero.mp hcnt0) hmem
  refine ⟨hanot, ?_, ?_⟩
  · rw [hperm.mem_iff]
    exact (List.mem_erase_of_ne hab).mpr hb
  · intro it hmem hbx
    have hsub : it ∈ t.all := by
      have := hperm.mem_iff.mp hmem
      exact List.mem_of_mem_erase this
    rcases honly it hsub hbx with h1 | h1
    · exact absurd (h1 ▸ hmem) hanot
    · exact h1

/-- Witness for C2: two items sharing the rectangle `(0,0,1,1)`,
distinguished only by payload identity. -/
theorem remove_by_identity_witness :
    (4 ≤ c2tree.maxEntries ∧ c2tree.wfFor 1 = true ∧ c2b.box = c2a.box ∧
      c2b ≠ c2a ∧ c2tree.all.count c2a = 1 ∧ c2b ∈ c2tree.all ∧
      ∀ it ∈ c2tree.all, it.box = c2a.box → it = c2a ∨ it = c2b) ∧
    (c2a ∉ (c2tree.remove c2a).all ∧ c2b ∈ (c2tree.remove c2a).all ∧
      ∀ it ∈ (c2tree.remove c2a).all, it.box = c2a.box → it = c2b) :=
  ⟨by decide, remove_by_identity c2tree c2a c2b (by decide) (by decide)
    (by decide) (by decide) (by decide) (by decide) (by decide)⟩

/-- Modelled from the spec: `load(batch)` (§4.1, §4.5): "if the tree is
empty or smaller than the batch, rebuilds via STR bulk load …; otherwise
inserts items one-by-one", with the spec's own threshold "current size ≤
batch size" read as: rebuild when the current tree is strictly smaller
than the batch (or empty). -/
def Tree.load (t : Tree) (batch : List Item) : Tree :=
  if t.all.isEmpty = true ∨ t.all.length < batch.length then
    ⟨t.maxEntries, strLoad t.maxEntries batch⟩
  else batch.foldl Tree.insert t

/-- Modelled from the spec: decode the densely packed coordinate buffer
`[minX₀, minY₀, maxX₀, maxY₀, minX₁, …]` (§4.1). -/
def chunk4 : List ℚ → List BBox
  | a :: b :: c :: d :: rest => ⟨a, b, c, d⟩ :: chunk4 rest
  | _ => []

/-- Modelled from the spec: the record sequence the hybrid loader works
on — coordinates read from the flat buffer by index, paired positionally
with the item payloads (§4.5). -/
def hybridBatch (flat : List ℚ) (items : List Item) : List Item :=
  List.zipWith (fun bb it => (⟨bb, it.payload⟩ : Item)) (chunk4 flat) items

/-- Modelled from the spec: `loadHybrid(flatCoords, items)` (§4.1, §4.5):
the engine reads each item's coordinates from the flat buffer, never from
the host item, and pairs them positionally with the item payloads; the
combined records then follow the `load` path. -/
def Tree.loadHybrid (t : Tree) (flat : List ℚ) (items : List Item) : Tree :=
  t.load (hybridBatch flat items)

theorem chunk4_encode : ∀ items : List Item,
    chunk4 (items.flatMap (fun it =>
      [it.box.minX, it.box.minY, it.box.maxX, it.box.maxY])) =
    items.map Item.box
  | [] => rfl
  | it :: rest => by
      simp only [List.flatMap_cons, List.cons_append, List.nil_append,
        List.map_cons]
      rw [chunk4]
      rw [chunk4_encode rest]

theorem zipWith_rebuild : ∀ items : List Item,
    List.zipWith (fun bb it => (⟨bb, it.payload⟩ : Item))
      (items.map Item.box) items = items
  | [] => rfl
  | it :: rest => by
      simp only [List.map_cons, List.zipWith_cons_cons]
      rw [zipWith_rebuild rest]

/-- A flat buffer that encodes exactly the items' own coordinates decodes
back to the items themselves. -/
theorem hybridBatch_encode (items : List Item) :
    hybridBatch (items.flatMap (fun it =>
      [it.box.minX, it.box.minY, it.box.maxX, it.box.maxY])) items =
    items := by
  unfold hybridBatch
  rw [chunk4_encode]
  exact zipWith_rebuild items

/-- C3: `loadHybrid` refines `load`: when the flat coordinate buffer
carries exactly the items' coordinates in the documented layout, the tree
built by `loadHybrid(flat, items)` answers every `search(R)` identically
(as a multiset) to the tree built by `load(items)`. -/
theorem loadHybrid_load_equiv (t : Tree) (items : List Item)
    (flat : List ℚ) (henc : flat = items.flatMap (fun it =>
      [it.box.minX, it.box.minY, it.box.maxX, it.box.maxY])) :
    ∀ r : BBox, Multiset.ofList ((t.loadHybrid flat items).search r) =
      Multiset.ofList ((t.load items).search r) := by
  subst henc
  intro r
  unfold Tree.loadHybrid
  rw [hybridBatch_encode]

def c3items : List Item := [⟨⟨0, 0, 1, 1⟩, 1⟩, ⟨⟨10, 10, 11, 11⟩, 2⟩]

def c3flat : List ℚ := [0, 0, 1, 1, 10, 10, 11, 11]

/-- Witness for C3: the spec's own boundary scenario, coordinates
`[0,0,1,1, 10,10,11,11]` with two payloads. -/
theorem loadHybrid_load_equiv_witness :
    (c3flat = c3items.flatMap (fun it =>
      [it.box.minX, it.box.minY, it.box.maxX, it.box.maxY])) ∧
    ∀ r : BBox,
      Multiset.ofList (((Tree.new 9).loadHybrid c3flat c3items).search r) =
      Multiset.ofList (((Tree.new 9).load c3items).search r) :=
  ⟨by decide, loadHybrid_load_equiv (Tree.new 9) c3items c3flat (by decide)⟩

/-! ## Operation histories -/

/-- The claim's structural invariants exactly as §3/§8 state them: every
non-root node has between `m` and `M` children, the root between 1 and
`M` (a root leaf may also be empty), children of an interior node all of
the same height (all leaves at the same depth), and every cached
rectangle exactly the union of its children's rectangles. -/
def specInvariantb (m M : ℕ) : Node → Bool
  | .leaf b its =>
      decide (its.length ≤ M) && tightFor b (its.map Item.box)
  | .inner b cs =>
      fillOK 1 M cs.toList.length &&
      tightFor b (cs.toList.map Node.boxOf) &&
      uniformFor cs && cs.wfbL m M

theorem specInvariantb_leaf_iff {m M : ℕ} {b : BBox} {its : List Item} :
    specInvariantb m M (.leaf b its) = true ↔
    its.length ≤ M ∧ b = bboxOfList (its.map Item.box) := by
  simp [specInvariantb, tightFor]

theorem specInvariantb_inner_iff {m M : ℕ} {b : BBox} {cs : NodeList} :
    specInvariantb m M (.inner b cs) = true ↔
    fillOK 1 M cs.toList.length = true ∧
    b = bboxOfList (cs.toList.map Node.boxOf) ∧
    uniformFor cs = true ∧ cs.wfbL m M = true := by
  simp [specInvariantb, tightFor, and_assoc]

/-- The invariant this development maintains implies the claim's
invariant at the same fill level. -/
theorem wfRootb_imp_specInvariant {lb M : ℕ} {n : Node}
    (h : n.wfRootb lb M = true) : specInvariantb lb M n = true := by
  cases n with
  | leaf b its =>
      obtain ⟨h1, h2⟩ := wfRootb_leaf_iff.mp h
      exact specInvariantb_leaf_iff.mpr ⟨h1, h2⟩
  | inner b cs =>
      obtain ⟨hf, hb, hu, hl⟩ := wfRootb_inner_iff.mp h
      rw [fillOK_iff] at hf
      exact specInvariantb_inner_iff.mpr
        ⟨fillOK_iff.mpr ⟨by omega, hf.2.1, hf.2.2⟩, hb, hu, hl⟩

/-- A public mutating operation of the host API (§4.1). -/
inductive Op where
  | ins (it : Item)
  | del (it : Item)
  | load (batch : List Item)
  | loadH (flat : List ℚ) (items : List Item)

/-- Modelled from the spec: one public operation applied to the tree. -/
def applyOp (t : Tree) : Op → Tree
  | .ins it => t.insert it
  | .del x => t.remove x
  | .load batch => t.load batch
  | .loadH flat items => t.loadHybrid flat items

/-- Modelled from the spec: a whole history of public operations run on a
freshly constructed tree. -/
def runOps (M0 : ℕ) (ops : List Op) : Tree :=
  ops.foldl applyOp (Tree.new M0)

/-- Does this operation avoid the wholesale STR rebuild path of `load`
(§4.5, rebuild-on-load policy)? -/
def opNoRebuild (t : Tree) : Op → Bool
  | .load batch =>
      !(t.all.isEmpty || decide (t.all.length < batch.length))
  | .loadH flat items =>
      !(t.all.isEmpty || decide (t.all.length <
        (hybridBatch flat items).length))
  | _ => true

/-- A history in which no `load`/`loadHybrid` takes the wholesale STR
rebuild path. -/
def rebuildFree : Tree → List Op → Bool
  | _, [] => true
  | t, op :: ops => opNoRebuild t op && rebuildFree (applyOp t op) ops

/-- Items handed to the tree by each operation: one per `insert`, the
whole batch for `load`/`loadHybrid`, none for `remove`. -/
def suppliedCount : List Op → ℕ
  | [] => 0
  | op :: ops =>
      (match op with
       | .ins _ => 1
       | .del _ => 0
       | .load batch => batch.length
       | .loadH flat items => (hybridBatch flat items).length) +
      suppliedCount ops

/-- The removes of a history that actually matched a stored item. -/
def matchedRemoves : Tree → List Op → ℕ
  | _, [] => 0
  | t, op :: ops =>
      (match op with
       | .del x => if x ∈ t.all then 1 else 0
       | _ => 0) + matchedRemoves (applyOp t op) ops

theorem minEntries_congr {t1 t2 : Tree}
    (h : t1.maxEntries = t2.maxEntries) : t1.minEntries = t2.minEntries := by
  unfold Tree.minEntries
  rw [h]

/-- Folding `insert` over a batch preserves the invariant and appends the
batch to the stored multiset. -/
theorem foldl_insert_wf {lb : ℕ} : ∀ (batch : List Item) (t : Tree),
    lb ≤ t.minEntries → 4 ≤ t.maxEntries → t.wfFor lb = true →
    (batch.foldl Tree.insert t).wfFor lb = true ∧
    (batch.foldl Tree.insert t).all.Perm (t.all ++ batch) ∧
    (batch.foldl Tree.insert t).maxEntries = t.maxEntries
  | [], t => by
      intro _ _ h
      exact ⟨h, by simp, rfl⟩
  | it :: rest, t => by
      intro hlb h4 h
      obtain ⟨h1, h2, h3⟩ := insert_tree_wf t it hlb h4 h
      simp only [List.foldl_cons]
      have hmin : (t.insert it).minEntries = t.minEntries :=
        minEntries_congr h3

      obtain ⟨g1, g2, g3⟩ := foldl_insert_wf rest (t.insert it)
        (by rw [hmin]; exact hlb) (by rw [h3]; exact h4) h1
      refine ⟨g1, ?_, by rw [g3, h3]⟩
      have hstep : ((t.insert it).all ++ rest).Perm (t.all ++ (it :: rest)) := by
        have := h2.append_right rest
        calc (t.insert it).all ++ rest
            ~ (t.all ++ [it]) ++ rest := this
          _ = t.all ++ (it :: rest) := by simp
      exact g2.trans hstep

/-- `load` preserves the weak invariant. -/
theorem load_wf_weak (t : Tree) (batch : List Item)
    (h4 : 4 ≤ t.maxEntries) (h : t.wfFor 1 = true) :
    (t.load batch).wfFor 1 = true ∧
    (t.load batch).maxEntries = t.maxEntries := by
  obtain ⟨hm2, hM⟩ := minEntries_bounds t h4
  unfold Tree.load
  by_cases hcond : (t.all.isEmpty = true ∨ t.all.length < batch.length)
  · rw [if_pos hcond]
    have hs := strLoad_wf (show 2 ≤ t.maxEntries by omega) batch
    exact ⟨hs.1, rfl⟩
  · rw [if_neg hcond]
    obtain ⟨g1, _, g3⟩ := foldl_insert_wf batch t (by omega) h4 h
    exact ⟨g1, g3⟩

/-- Every public operation preserves the weak invariant and the branching
factor. -/
theorem applyOp_wf_weak (t : Tree) (op : Op) (h4 : 4 ≤ t.maxEntries)
    (h : t.wfFor 1 = true) :
    (applyOp t op).wfFor 1 = true ∧
    (applyOp t op).maxEntries = t.maxEntries := by
  obtain ⟨hm2, hM⟩ := minEntries_bounds t h4
  cases op with
  | ins it =>
      obtain ⟨h1, _, h3⟩ := insert_tree_wf t it (by omega) h4 h
      exact ⟨h1, h3⟩
  | del x =>
      have hmain := remove_tree_wf t x (le_refl 1) (by omega) h4 h
      by_cases hx : x ∈ t.all
      · exact ⟨(hmain.2.1 hx).1, hmain.2.2⟩
      · show (t.remove x).wfFor 1 = true ∧ _
        rw [hmain.1 hx]
        exact ⟨h, rfl⟩
  | load batch => exact load_wf_weak t batch h4 h
  | loadH flat items =>
      show (t.load (hybridBatch flat items)).wfFor 1 = true ∧ _
      exact load_wf_weak t (hybridBatch flat items) h4 h

/-- A `load` that avoids the rebuild path preserves the strong (min-fill)
invariant. -/
theorem load_wf_strong (t : Tree) (batch : List Item)
    (h4 : 4 ≤ t.maxEntries) (h : t.wfFor t.minEntries = true)
    (hnr : (!(t.all.isEmpty || decide (t.all.length < batch.length)))
      = true) :
    (t.load batch).wfFor t.minEntries = true ∧
    (t.load batch).maxEntries = t.maxEntries := by
  simp only [Bool.not_eq_eq_eq_not, Bool.not_true, Bool.or_eq_false_iff,
    decide_eq_false_iff_not] at hnr
  unfold Tree.load
  have hcond : ¬ (t.all.isEmpty = true ∨ t.all.length < batch.length) := by
    intro hc
    rcases hc with hc | hc
    · rw [hnr.1] at hc
      exact Bool.false_ne_true hc
    · exact hnr.2 hc
  rw [if_neg hcond]
  obtain ⟨g1, _, g3⟩ := foldl_insert_wf batch t (le_refl t.minEntries) h4 h
  exact ⟨g1, g3⟩

/-- A public operation off the rebuild path preserves the strong
invariant. -/
theorem applyOp_wf_strong (t : Tree) (op : Op) (h4 : 4 ≤ t.maxEntries)
    (h : t.wfFor t.minEntries = true) (hop : opNoRebuild t op = true) :
    (applyOp t op).wfFor t.minEntries = true ∧
    (applyOp t op).maxEntries = t.maxEntries := by
  obtain ⟨hm2, hM⟩ := minEntries_bounds t h4
  cases op with
  | ins it =>
      obtain ⟨h1, _, h3⟩ :=
        insert_tree_wf t it (le_refl t.minEntries) h4 h
      exact ⟨h1, h3⟩
  | del x =>
      have hmain := remove_tree_wf t x (by omega) (le_refl t.minEntries) h4 h
      by_cases hx : x ∈ t.all
      · exact ⟨(hmain.2.1 hx).1, hmain.2.2⟩
      · show (t.remove x).wfFor t.minEntries = true ∧ _
        rw [hmain.1 hx]
        exact ⟨h, rfl⟩
  | load batch => exact load_wf_strong t batch h4 h hop
  | loadH flat items =>
      show (t.load (hybridBatch flat items)).wfFor t.minEntries = true ∧ _
      exact load_wf_strong t (hybridBatch flat items) h4 h hop

/-- Weak invariant along a whole history. -/
theorem foldl_applyOp_wf_weak : ∀ (ops : List Op) (t : Tree),
    4 ≤ t.maxEntries → t.wfFor 1 = true →
    (ops.foldl applyOp t).wfFor 1 = true ∧
    (ops.foldl applyOp t).maxEntries = t.maxEntries
  | [], t => by
      intro _ h
      exact ⟨h, rfl⟩
  | op :: ops, t => by
      intro h4 h
      simp only [List.foldl_cons]
      obtain ⟨h1, h2⟩ := applyOp_wf_weak t op h4 h
      obtain ⟨g1, g2⟩ := foldl_applyOp_wf_weak ops (applyOp t op)
        (by rw [h2]; exact h4) h1
      exact ⟨g1, by rw [g2, h2]⟩

/-- Strong (min-fill) invariant along a rebuild-free history. -/
theorem foldl_applyOp_wf_strong : ∀ (ops : List Op) (t : Tree),
    4 ≤ t.maxEntries → t.wfFor t.minEntries = true →
    rebuildFree t ops = true →
    (ops.foldl applyOp t).wfFor (ops.foldl applyOp t).minEntries = true ∧
    (ops.foldl applyOp t).maxEntries = t.maxEntries
  | [], t => by
      intro _ h _
      exact ⟨h, rfl⟩
  | op :: ops, t => by
      intro h4 h hrb
      simp only [rebuildFree, Bool.and_eq_true] at hrb
      simp only [List.foldl_cons]
      obtain ⟨h1, h2⟩ := applyOp_wf_strong t op h4 h hrb.1
      have hmin : (applyOp t op).minEntries = t.minEntries :=
        minEntries_congr h2
      obtain ⟨g1, g2⟩ := foldl_applyOp_wf_strong ops (applyOp t op)
        (by rw [h2]; exact h4) (by rw [hmin]; exact h1) hrb.2
      exact ⟨g1, by rw [g2, h2]⟩

theorem new_wf (M0 lb : ℕ) : (Tree.new M0).wfFor lb = true :=
  wfRootb_emptyLeaf lb (max 4 M0)

theorem new_maxEntries (M0 : ℕ) : 4 ≤ (Tree.new M0).maxEntries := by
  show 4 ≤ max 4 M0
  omega

theorem load_noRebuild_eq (t : Tree) (batch : List Item)
    (hnr : (!(t.all.isEmpty || decide (t.all.length < batch.length)))
      = true) :
    t.load batch = batch.foldl Tree.insert t := by
  simp only [Bool.not_eq_eq_eq_not, Bool.not_true, Bool.or_eq_false_iff,
    decide_eq_false_iff_not] at hnr
  unfold Tree.load
  rw [if_neg (by
    intro hc
    rcases hc with hc | hc
    · rw [hnr.1] at hc
      exact Bool.false_ne_true hc
    · exact hnr.2 hc)]

/-- The size accounting of a rebuild-free history, relative to any
well-formed starting tree. -/
theorem accounting_aux : ∀ (ops : List Op) (t : Tree),
    4 ≤ t.maxEntries → t.wfFor 1 = true → rebuildFree t ops = true →
    (ops.foldl applyOp t).all.length + matchedRemoves t ops =
    t.all.length + suppliedCount ops
  | [], t => by
      intro _ _ _
      simp [matchedRemoves, suppliedCount]
  | op :: ops, t => by
      intro h4 h hrb
      simp only [rebuildFree, Bool.and_eq_true] at hrb
      obtain ⟨hnr, hrb2⟩ := hrb
      obtain ⟨hm2, hMM⟩ := minEntries_bounds t h4
      obtain ⟨h1, h2⟩ := applyOp_wf_weak t op h4 h
      have hrec := accounting_aux ops (applyOp t op)
        (by rw [h2]; exact h4) h1 hrb2
      cases op with
      | ins it =>
          simp only [List.foldl_cons, matchedRemoves, suppliedCount,
            applyOp] at hrec ⊢
          obtain ⟨_, hp, _⟩ := insert_tree_wf t it (by omega) h4 h
          have hlen := hp.length_eq
          simp only [List.length_append, List.length_cons,
            List.length_nil] at hlen
          omega
      | del x =>
          simp only [List.foldl_cons, matchedRemoves, suppliedCount,
            applyOp] at hrec ⊢
          have hmain := remove_tree_wf t x (le_refl 1) (by omega) h4 h
          by_cases hx : x ∈ t.all
          · rw [if_pos hx]
            have hp := (hmain.2.1 hx).2
            have hlen := hp.length_eq
            rw [List.length_erase_of_mem hx] at hlen
            have hpos : 0 < t.all.length := List.length_pos_of_mem hx
            omega
          · rw [if_neg hx]
            rw [hmain.1 hx] at hrec ⊢
            omega
      | load batch =>
          simp only [List.foldl_cons, matchedRemoves, suppliedCount,
            applyOp] at hrec ⊢
          have hload := load_noRebuild_eq t batch hnr
          rw [hload] at hrec ⊢
          obtain ⟨_, hp, _⟩ := foldl_insert_wf batch t (by omega) h4 h
          have hlen := hp.length_eq
          simp only [List.length_append] at hlen
          omega
      | loadH flat items =>
          simp only [List.foldl_cons, matchedRemoves, suppliedCount,
            applyOp, Tree.loadHybrid] at hrec ⊢
          have hload := load_noRebuild_eq t (hybridBatch flat items) hnr
          rw [hload] at hrec ⊢
          obtain ⟨_, hp, _⟩ :=
            foldl_insert_wf (hybridBatch flat items) t (by omega) h4 h
          have hlen := hp.length_eq
          simp only [List.length_append] at hlen
          omega

def demoOps : List Op :=
  [.ins ⟨⟨0, 0, 1, 1⟩, 0⟩, .load [⟨⟨2, 2, 3, 3⟩, 1⟩],
   .del ⟨⟨0, 0, 1, 1⟩, 0⟩]

/-- Modelled from the spec: 19 unit squares in a row — a bulk-load input
on which the spec's own STR packing produces an under-filled leaf. -/
def c6cexItems : List Item :=
  (List.range 19).map (fun (i : ℕ) => ⟨⟨(i : ℚ), 0, (i : ℚ) + 1, 1⟩, i⟩)

/-- C6 (amended): after any history of public operations on well-formed
input the tree satisfies the claim's structural invariants with the
lower fill bound weakened to 1 (the spec's own STR bulk loader can
produce non-root nodes below `m`); along histories in which no
`load`/`loadHybrid` takes the wholesale rebuild path, the full min-fill
bound `m` also holds. -/
theorem invariants_after_history (M0 : ℕ) (ops : List Op) :
    specInvariantb 1 (runOps M0 ops).maxEntries
      (runOps M0 ops).root = true ∧
    (rebuildFree (Tree.new M0) ops = true →
      specInvariantb (runOps M0 ops).minEntries (runOps M0 ops).maxEntries
        (runOps M0 ops).root = true) := by
  constructor
  · obtain ⟨h1, _⟩ := foldl_applyOp_wf_weak ops (Tree.new M0)
      (new_maxEntries M0) (new_wf M0 1)
    exact wfRootb_imp_specInvariant h1
  · intro hrb
    obtain ⟨h1, _⟩ := foldl_applyOp_wf_strong ops (Tree.new M0)
      (new_maxEntries M0) (new_wf M0 (Tree.new M0).minEntries) hrb
    exact wfRootb_imp_specInvariant h1

/-- Counterexample to C6 as stated: bulk-loading 19 items into a fresh
tree with `maxEntries = 9` (so `m = 4`) leaves a leaf with a single item
— below the claimed minimum fill — so the claimed invariant fails after
a completed public operation on well-formed input. -/
theorem invariants_after_history_cex :
    specInvariantb (runOps 9 [Op.load c6cexItems]).minEntries
      (runOps 9 [Op.load c6cexItems]).maxEntries
      (runOps 9 [Op.load c6cexItems]).root = false := by
  with_unfolding_all decide

/-- Witness for C6 at a concrete rebuild-free history. -/
theorem invariants_after_history_witness :
    rebuildFree (Tree.new 9) demoOps = true ∧
    (specInvariantb 1 (runOps 9 demoOps).maxEntries
      (runOps 9 demoOps).root = true ∧
     specInvariantb (runOps 9 demoOps).minEntries
       (runOps 9 demoOps).maxEntries (runOps 9 demoOps).root = true) :=
  ⟨by decide, (invariants_after_history 9 demoOps).1,
    (invariants_after_history 9 demoOps).2 (by decide)⟩

/-- C8 (amended): across any rebuild-free history, `all()` has exactly
as many items as were supplied by `insert`/`load`/`loadHybrid` minus the
removes that matched a stored item (stated additively). -/
theorem all_length_accounting (M0 : ℕ) (ops : List Op)
    (hrb : rebuildFree (Tree.new M0) ops = true) :
    (runOps M0 ops).all.length + matchedRemoves (Tree.new M0) ops =
    suppliedCount ops := by
  have hmain := accounting_aux ops (Tree.new M0) (new_maxEntries M0)
    (new_wf M0 1) hrb
  have h0 : (Tree.new M0).all.length = 0 := rfl
  unfold runOps
  omega

/-- Counterexample to C8 as stated: insert one item, then load a batch
of two — the spec's rebuild-on-load policy replaces the tree wholesale,
so `all().length` is 2, not the claimed 1 + 2 − 0 = 3. -/
theorem all_length_accounting_cex :
    (runOps 9 [Op.ins ⟨⟨0, 0, 1, 1⟩, 0⟩,
      Op.load [⟨⟨2, 2, 3, 3⟩, 1⟩, ⟨⟨4, 4, 5, 5⟩, 2⟩]]).all.length ≠
    suppliedCount [Op.ins ⟨⟨0, 0, 1, 1⟩, 0⟩,
      Op.load [⟨⟨2, 2, 3, 3⟩, 1⟩, ⟨⟨4, 4, 5, 5⟩, 2⟩]] -
    matchedRemoves (Tree.new 9) [Op.ins ⟨⟨0, 0, 1, 1⟩, 0⟩,
      Op.load [⟨⟨2, 2, 3, 3⟩, 1⟩, ⟨⟨4, 4, 5, 5⟩, 2⟩]] := by
  with_unfolding_all decide

/-- Witness for C8 at a concrete rebuild-free history: one insert, a
non-rebuilding load of one item, one matched remove. -/
theorem all_length_accounting_witness :
    rebuildFree (Tree.new 9) demoOps = true ∧
    ((runOps 9 demoOps).all.length + matchedRemoves (Tree.new 9) demoOps =
      suppliedCount demoOps) :=
  ⟨by decide, all_length_accounting 9 demoOps (by decide)⟩

/-! ## Serialisation -/

mutual
/-- Modelled from the spec: the serialisation format (§6): a recursive
node record with the cached rectangle's four coordinates, `height`,
a `leaf` flag, and `children` — items at leaves, node records at
interior nodes. -/
inductive JsonNode where
  | mk (minX minY maxX maxY : ℚ) (height : ℕ) (leaf : Bool)
      (children : JsonChildren)
/-- The `children` field: a sequence of items or of node records. -/
inductive JsonChildren where
  | items (its : List Item)
  | nodes (ns : JsonList)
/-- A sequence of serialised node records. -/
inductive JsonList where
  | nil
  | cons (c : JsonNode) (rest : JsonList)
end

mutual
/-- Modelled from the spec: `toJSON()` (§4.1, §6): serialise the node
shape exactly. -/
def Node.toJSON : Node → JsonNode
  | .leaf b its => .mk b.minX b.minY b.maxX b.maxY 1 true (.items its)
  | .inner b cs =>
      .mk b.minX b.minY b.maxX b.maxY (1 + cs.heightMax) false
        (.nodes cs.toJSONL)
def NodeList.toJSONL : NodeList → JsonList
  | .nil => .nil
  | .cons c rest => .cons c.toJSON rest.toJSONL
end

mutual
/-- Modelled from the spec: deserialise one node record (§6, §7):
validation is minimal — only a record whose `leaf` flag contradicts the
kind of its `children` is a shape mismatch, signalled by `none`. -/
def JsonNode.fromJSONN : JsonNode → Option Node
  | .mk x y X Y _h lf ch =>
      match lf, ch with
      | true, .items its => some (.leaf ⟨x, y, X, Y⟩ its)
      | false, .nodes ns =>
          match ns.fromJSONL with
          | some cs => some (.inner ⟨x, y, X, Y⟩ cs)
          | none => none
      | _, _ => none
def JsonList.fromJSONL : JsonList → Option NodeList
  | .nil => some .nil
  | .cons c rest =>
      match c.fromJSONN, rest.fromJSONL with
      | some n, some ns => some (.cons n ns)
      | _, _ => none
end

def Tree.toJSON (t : Tree) : JsonNode := t.root.toJSON

/-- Modelled from the spec: `fromJSON(data)` (§4.1, §6, §7): on a shape
mismatch the tree is left in its pre-call state. -/
def Tree.fromJSON (t : Tree) (d : JsonNode) : Tree :=
  match d.fromJSONN with
  | some n => ⟨t.maxEntries, n⟩
  | none => t

mutual
theorem toJSON_fromJSONN : ∀ n : Node, n.toJSON.fromJSONN = some n
  | .leaf b its => rfl
  | .inner b cs => by
      show (match cs.toJSONL.fromJSONL with
            | some cs2 =>
                some (Node.inner ⟨b.minX, b.minY, b.maxX, b.maxY⟩ cs2)
            | none => none) = some (.inner b cs)
      rw [toJSON_fromJSONL cs]
theorem toJSON_fromJSONL : ∀ cs : NodeList,
    cs.toJSONL.fromJSONL = some cs
  | .nil => rfl
  | .cons c rest => by
      show (match c.toJSON.fromJSONN, rest.toJSONL.fromJSONL with
            | some n, some ns => some (NodeList.cons n ns)
            | _, _ => none) = some (.cons c rest)
      rw [toJSON_fromJSONN c, toJSON_fromJSONL rest]
end

theorem fromJSON_toJSON (t : Tree) : t.fromJSON t.toJSON = t := by
  show (match t.root.toJSON.fromJSONN with
        | some n => (⟨t.maxEntries, n⟩ : Tree)
        | none => t) = t
  rw [toJSON_fromJSONN t.root]

/-- C5: serialisation round-trips exactly: for every tree,
`fromJSON(toJSON(t))` produces a tree whose `all()` equals `t.all()` as
multisets and whose `toJSON()` output is structurally equal to
`t.toJSON()`. -/
theorem toJSON_roundtrip (t : Tree) :
    Multiset.ofList ((t.fromJSON t.toJSON).all) =
      Multiset.ofList t.all ∧
    (t.fromJSON t.toJSON).toJSON = t.toJSON := by
  rw [fromJSON_toJSON]
  exact ⟨rfl, rfl⟩

/-! ## The facade's host-boundary marshalling (src/rbush.js) -/

/-- A host (JavaScript) item object: the four coordinate fields the
facade reads and overrides, and `payload` standing for all its other own
properties, which a spread copies verbatim. -/
structure JsObject where
  minX : ℚ
  minY : ℚ
  maxX : ℚ
  maxY : ℚ
  payload : ℕ

/-- The host object heap: an object reference is an index into `objs`;
distinct indices are distinct object identities. -/
structure JsHeap where
  objs : List JsObject

def JsHeap.get (h : JsHeap) (r : ℕ) : JsObject :=
  h.objs.getD r ⟨0, 0, 0, 0, 0⟩

/-- Allocating a new object returns a reference distinct from every live
one. -/
def JsHeap.alloc (h : JsHeap) (o : JsObject) : JsHeap × ℕ :=
  (⟨h.objs ++ [o]⟩, h.objs.length)

/-- The host mutating the coordinate fields of one of its objects in
place. -/
def JsHeap.setCoords (h : JsHeap) (r : ℕ) (b : BBox) : JsHeap :=
  ⟨h.objs.set r ⟨b.minX, b.minY, b.maxX, b.maxY, (h.get r).payload⟩⟩

/-- Embedded from src/rbush.js, `toBBox(item) { return item; }`: the
default bounding-box accessor reads the item's own coordinate fields. -/
def toBBoxRef (h : JsHeap) (r : ℕ) : BBox :=
  ⟨(h.get r).minX, (h.get r).minY, (h.get r).maxX, (h.get r).maxY⟩

/-- Embedded from src/rbush.js, `insert`/`remove` (and the per-item body
of `load`): the object literal
`{ ...item, minX: b.minX, minY: b.minY, maxX: b.maxX, maxY: b.maxY }`
with `b = this.toBBox(item)` — a freshly allocated shallow copy whose
coordinates are read from `toBBox` at call time. -/
def marshal (h : JsHeap) (r : ℕ) : JsHeap × ℕ :=
  let b := toBBoxRef h r
  h.alloc ⟨b.minX, b.minY, b.maxX, b.maxY, (h.get r).payload⟩

/-- Embedded from src/rbush.js, `load`: `data.map(item => ...)` marshals
every element of the batch in order. -/
def marshalList (h : JsHeap) : List ℕ → JsHeap × List ℕ
  | [] => (h, [])
  | r :: rs =>
      let p := marshal h r
      let q := marshalList p.1 rs
      (q.1, p.2 :: q.2)

theorem getD_append_self {α : Type} (l : List α) (o d : α) :
    (l ++ [o]).getD l.length d = o := by
  rw [List.getD_eq_getElem?_getD,
    List.getElem?_append_right (le_refl l.length)]
  simp

theorem getD_set_ne {α : Type} (l : List α) (i j : ℕ) (v d : α)
    (hne : i ≠ j) : (l.set i v).getD j d = l.getD j d := by
  rw [List.getD_eq_getElem?_getD, List.getD_eq_getElem?_getD,
    List.getElem?_set_ne hne]

/-- Every reference returned by the `load` marshalling is freshly
allocated: at least the pre-call heap size, hence not any pre-existing
host reference. -/
theorem marshalList_fresh : ∀ (rs : List ℕ) (h : JsHeap) (a2 : ℕ),
    a2 ∈ (marshalList h rs).2 → h.objs.length ≤ a2
  | [], h, a2 => by
      intro ha
      simp [marshalList] at ha
  | r0 :: rest, h, a2 => by
      intro ha
      simp only [marshalList, List.mem_cons] at ha
      rcases ha with rfl | ha
      · show h.objs.length ≤ (marshal h r0).2
        have he : (marshal h r0).2 = h.objs.length := rfl
        omega
      · have hrec := marshalList_fresh rest (marshal h r0).1 a2 ha
        have hlen : (marshal h r0).1.objs.length = h.objs.length + 1 := by
          show (h.objs ++ [_]).length = h.objs.length + 1
          simp
        omega

/-- C10: the facade's `insert`, `load` and `remove` hand the engine a
fresh shallow copy of the item — never the host's original object
reference — whose coordinate fields are read from `toBBox(item)` at call
time and whose other properties are carried over; mutating the original
object afterwards does not change the stored copy, and a later `remove`
marshals yet another object, distinct from the one the engine stores. -/
theorem facade_fresh_copy (h : JsHeap) (r : ℕ)
    (hr : r < h.objs.length) :
    ((marshal h r).2 ≠ r) ∧
    ((marshal h r).1.get (marshal h r).2 =
      ⟨(toBBoxRef h r).minX, (toBBoxRef h r).minY, (toBBoxRef h r).maxX,
        (toBBoxRef h r).maxY, (h.get r).payload⟩) ∧
    (∀ c : BBox, ((marshal h r).1.setCoords r c).get (marshal h r).2 =
      (marshal h r).1.get (marshal h r).2) ∧
    ((marshal (marshal h r).1 r).2 ≠ (marshal h r).2) ∧
    (∀ rs : List ℕ, ∀ a2 ∈ (marshalList h rs).2,
      h.objs.length ≤ a2) := by
  have ha : (marshal h r).2 = h.objs.length := rfl
  have hobjs : (marshal h r).1.objs =
      h.objs ++ [⟨(toBBoxRef h r).minX, (toBBoxRef h r).minY,
        (toBBoxRef h r).maxX, (toBBoxRef h r).maxY,
        (h.get r).payload⟩] := rfl
  refine ⟨by omega, ?_, ?_, ?_, fun rs => marshalList_fresh rs h⟩
  · show (marshal h r).1.objs.getD (marshal h r).2 ⟨0, 0, 0, 0, 0⟩ = _
    rw [ha, hobjs]
    exact getD_append_self h.objs _ _
  · intro c
    show ((marshal h r).1.objs.set r _).getD (marshal h r).2
      ⟨0, 0, 0, 0, 0⟩ = (marshal h r).1.objs.getD (marshal h r).2
      ⟨0, 0, 0, 0, 0⟩
    exact getD_set_ne _ r _ _ _ (by omega)
  · have hb : (marshal (marshal h r).1 r).2 =
        (marshal h r).1.objs.length := rfl
    have hlen : (marshal h r).1.objs.length = h.objs.length + 1 := by
      rw [hobjs]
      simp
    omega

/-- Witness for C10 at a one-object heap. -/
theorem facade_fresh_copy_witness :
    (0 < (JsHeap.mk [⟨0, 0, 1, 1, 5⟩]).objs.length) ∧
    (((marshal (JsHeap.mk [⟨0, 0, 1, 1, 5⟩]) 0).2 ≠ 0) ∧
     ((marshal (JsHeap.mk [⟨0, 0, 1, 1, 5⟩]) 0).1.get
        (marshal (JsHeap.mk [⟨0, 0, 1, 1, 5⟩]) 0).2 =
       ⟨(toBBoxRef (JsHeap.mk [⟨0, 0, 1, 1, 5⟩]) 0).minX,
         (toBBoxRef (JsHeap.mk [⟨0, 0, 1, 1, 5⟩]) 0).minY,
         (toBBoxRef (JsHeap.mk [⟨0, 0, 1, 1, 5⟩]) 0).maxX,
         (toBBoxRef (JsHeap.mk [⟨0, 0, 1, 1, 5⟩]) 0).maxY,
         ((JsHeap.mk [⟨0, 0, 1, 1, 5⟩]).get 0).payload⟩) ∧
     (∀ c : BBox,
       ((marshal (JsHeap.mk [⟨0, 0, 1, 1, 5⟩]) 0).1.setCoords 0 c).get
          (marshal (JsHeap.mk [⟨0, 0, 1, 1, 5⟩]) 0).2 =
        (marshal (JsHeap.mk [⟨0, 0, 1, 1, 5⟩]) 0).1.get
          (marshal (JsHeap.mk [⟨0, 0, 1, 1, 5⟩]) 0).2) ∧
     ((marshal (marshal (JsHeap.mk [⟨0, 0, 1, 1, 5⟩]) 0).1 0).2 ≠
       (marshal (JsHeap.mk [⟨0, 0, 1, 1, 5⟩]) 0).2) ∧
     (∀ rs : List ℕ,
       ∀ a2 ∈ (marshalList (JsHeap.mk [⟨0, 0, 1, 1, 5⟩]) rs).2,
       (JsHeap.mk [⟨0, 0, 1, 1, 5⟩]).objs.length ≤ a2)) :=
  ⟨by decide, facade_fresh_copy (JsHeap.mk [⟨0, 0, 1, 1, 5⟩]) 0 (by decide)⟩

end RBushSpec
